import Mathlib

/-!
# Verification of the RoomPlan scan importer (`src/utils/roomplan_importer.py`)

Shallow embedding of the scan-to-floorplan reconciliation pipeline:

* `Point`, `Wall` mirror `core/geometry.py` (`Point`, `Wall`).  Coordinates are
  embedded over an arbitrary ordered field `α`: the executable reconciliation
  passes (`snap_corners`, `order_walls_fixed`, opening placement) are
  instantiated at `ℚ`, while wall extraction and rotation extraction — which
  use `math.sqrt` / `math.atan2` — are instantiated at `ℝ`.
* Python's `point1.distance_to(point2) > 0 and ... < tolerance` comparisons are
  embedded via squared distances: for nonnegative reals, `sqrt d > 0 ∧ sqrt d <
  t` holds iff `d > 0 ∧ (0 < t ∧ d < t^2)`, so every branch taken by the
  embedded code is the branch taken by the source.  Where a claim is about the
  distance itself the statement uses `Real.sqrt` of the squared quantity.
* Python lists of mutable `Wall` objects become functional lists; in-place
  endpoint mutation becomes `List.set` on the flattened endpoint list
  (`epsOf`), written back by `writeBack`.
-/

/-- 2D point, `core/geometry.py` `Point`, over an arbitrary coordinate type. -/
structure Point (α : Type) where
  x : α
  y : α
deriving DecidableEq, Repr

/-- Squared Euclidean distance; the square of `Point.distance_to`. -/
def sqDist {α : Type} [CommRing α] (p q : Point α) : α :=
  (p.x - q.x) ^ 2 + (p.y - q.y) ^ 2

/-- Wall types, `core/geometry.py` `WallType`. -/
inductive WallType where
  | exterior | interior | loadBearing | partitionW | curtain | glass | retaining
deriving DecidableEq, Repr

/-- Wall styles, `core/geometry.py` `WallStyle`. -/
inductive WallStyle where
  | solid | brick | concrete | glass | curtain | woodFrame | metalStud | stone
deriving DecidableEq, Repr

/-- Wall segment, `core/geometry.py` `Wall` (the generated `id` field, a fresh
UUID, is not modelled; no claim depends on it). -/
structure Wall (α : Type) where
  start : Point α
  stop : Point α   -- `end` is a Lean keyword; this is the source's `end`
  thickness : α
  wallType : WallType
  wallStyle : WallStyle
  height : α
deriving DecidableEq, Repr

/-- Midpoint of two points: the `avg_point` computed by `_snap_corners`. -/
def midP {α : Type} [Field α] (p q : Point α) : Point α :=
  ⟨(p.x + q.x) / 2, (p.y + q.y) / 2⟩

/-- The flattened endpoint list `[w0.start, w0.end, w1.start, w1.end, ...]`:
the `endpoints` list of `(wall, is_start)` references built by
`_snap_corners`, in its exact order. -/
def epsOf {α : Type} : List (Wall α) → List (Point α)
  | [] => []
  | w :: ws => w.start :: w.stop :: epsOf ws

/-- Write a (same-length) endpoint list back into the walls: the effect of the
in-place endpoint mutation performed through the `(wall, is_start)`
references. -/
def writeBack {α : Type} : List (Wall α) → List (Point α) → List (Wall α)
  | [], _ => []
  | w :: ws, eps =>
      { w with start := eps.getD 0 w.start, stop := eps.getD 1 w.stop } ::
        writeBack ws (eps.drop 2)

/-- The branch condition of `_snap_corners`:
`distance > 0 and distance < tolerance`, expressed on the squared distance
(`sq = distance²`); equivalent since `distance ≥ 0`. -/
def snapCond {α : Type} [LinearOrderedField α] (sq tol : α) : Prop :=
  0 < sq ∧ 0 < tol ∧ sq < tol ^ 2

instance {α : Type} [LinearOrderedField α] (sq tol : α) :
    Decidable (snapCond sq tol) := by unfold snapCond; infer_instance

/-- Inner loop of `_snap_corners` (`for j in range(i+1, len(endpoints))`):
`p1` is the value of `point1` read once at the top of the outer iteration
(the source never re-reads it after a snap, so it can go stale). -/
def snapInner {α : Type} [LinearOrderedField α] (tol : α) (p1 : Point α)
    (i : ℕ) (st : List (Point α) × ℕ) (j : ℕ) : List (Point α) × ℕ :=
  let p2 := st.1.getD j ⟨0, 0⟩
  if snapCond (sqDist p1 p2) tol then
    let m := midP p1 p2
    (((st.1.set i m).set j m), st.2 + 1)
  else st

/-- Outer loop body of `_snap_corners` (`for i in range(len(endpoints))`). -/
def snapOuter {α : Type} [LinearOrderedField α] (tol : α) (n : ℕ)
    (st : List (Point α) × ℕ) (i : ℕ) : List (Point α) × ℕ :=
  let p1 := st.1.getD i ⟨0, 0⟩
  (List.range' (i + 1) (n - (i + 1))).foldl (snapInner tol p1 i) st

/-- One complete pass of `_snap_corners` over the flattened endpoint list,
returning the updated endpoints and the snap count. -/
def snapPass {α : Type} [LinearOrderedField α] (eps : List (Point α))
    (tol : α) : List (Point α) × ℕ :=
  (List.range' 0 eps.length).foldl (snapOuter tol eps.length) (eps, 0)

/-- `RoomPlanImporter._snap_corners`: snaps wall endpoints that are close
together; returns the updated walls and the number of snap operations. -/
def snap_corners {α : Type} [LinearOrderedField α] (walls : List (Wall α))
    (tol : α) : List (Wall α) × ℕ :=
  if walls = [] then ([], 0)
  else
    let r := snapPass (epsOf walls) tol
    (writeBack walls r.1, r.2)

-- sanity: two endpoints 1.8 apart with tolerance 2 snap to the midpoint

/-- Default wall (the `Wall` dataclass defaults) used by the total getter. -/
def dWall {α : Type} [LinearOrderedField α] : Wall α :=
  ⟨⟨0, 0⟩, ⟨0, 0⟩, 6, .interior, .solid, 96⟩

/-- Total indexing into the wall list (`walls[i]`; indices used by the source
are always in range). -/
def wget {α : Type} [LinearOrderedField α] (walls : List (Wall α)) (i : ℕ) :
    Wall α :=
  walls.getD i dWall

/-- `graph[i]['end_connects']` of `_order_walls_fixed`: for each other wall
`j` (in index order), an entry `(false, j)` if this wall's end is within the
tight tolerance `0.1` of `j`'s start (checked first), and an entry `(true, j)`
if it is within tolerance of `j`'s end (a flip-requiring match, checked
second).  `0.1` is compared on squared distances (`1/100`). -/
def endConnects {α : Type} [LinearOrderedField α] (walls : List (Wall α))
    (i : ℕ) : List (Bool × ℕ) :=
  (List.range' 0 walls.length).flatMap fun j =>
    if j = i then []
    else
      (if sqDist (wget walls i).stop (wget walls j).start < 1 / 100
        then [(false, j)] else []) ++
      (if sqDist (wget walls i).stop (wget walls j).stop < 1 / 100
        then [(true, j)] else [])

/-- `graph[i]['start_connects']` (built by the source but never consumed by
the trace; kept for faithfulness). -/
def startConnects {α : Type} [LinearOrderedField α] (walls : List (Wall α))
    (i : ℕ) : List (Bool × ℕ) :=
  (List.range' 0 walls.length).flatMap fun j =>
    if j = i then []
    else
      (if sqDist (wget walls i).start (wget walls j).start < 1 / 100
        then [(false, j)] else []) ++
      (if sqDist (wget walls i).start (wget walls j).stop < 1 / 100
        then [(true, j)] else [])

/-- The successor search of the trace loop: the first connection whose wall
index is unvisited (`for endpoint_type, wall_idx in connections: if wall_idx
not in visited: ... break`). -/
def findNext (conns : List (Bool × ℕ)) (visited : List ℕ) : Option (Bool × ℕ) :=
  conns.find? fun c => !(visited.contains c.2)

/-- The reversed copy built when a connection was recorded end-to-end:
`Wall(start=end, end=start, thickness, wall_type, height)` — `wall_style` is
not passed through, so it resets to the dataclass default `SOLID`. -/
def flipWall {α : Type} (w : Wall α) : Wall α :=
  ⟨w.stop, w.start, w.thickness, w.wallType, .solid, w.height⟩

/-- The `while len(visited) < len(walls)` trace loop of
`_order_walls_fixed`, with explicit fuel (the source loop adds one wall per
iteration, so `walls.length` fuel is never exhausted). -/
def trace {α : Type} [LinearOrderedField α] (walls : List (Wall α)) :
    ℕ → List (Wall α) → List ℕ → ℕ → List (Wall α) × List ℕ
  | 0, ordered, visited, _ => (ordered, visited)
  | fuel + 1, ordered, visited, cur =>
    if visited.length < walls.length then
      match findNext (endConnects walls cur) visited with
      | none => (ordered, visited)
      | some (f, nxt) =>
          trace walls fuel
            (ordered ++ [if f then flipWall (wget walls nxt) else wget walls nxt])
            (visited ++ [nxt]) nxt
    else (ordered, visited)

/-- `RoomPlanImporter._order_walls_fixed`: reorder walls into a sequential
chain by tracing end-connections from wall 0; on an incomplete trace the
original list is returned.  (The final closure check in the source only
logs.) -/
def order_walls_fixed {α : Type} [LinearOrderedField α]
    (walls : List (Wall α)) : List (Wall α) :=
  if walls = [] then []
  else if walls.length = 1 then walls
  else
    let r := trace walls walls.length [wget walls 0] [0] 0
    if r.1.length ≠ walls.length then walls else r.1

/-- `RoomPlanImporter.METERS_TO_INCHES = 39.3701`, over the reals. -/
noncomputable def METERS_TO_INCHES : ℝ := 393701 / 10000

/-- `RoomPlanImporter.METERS_TO_INCHES = 39.3701`, over the rationals (used
for the door-import arithmetic, which involves no square roots). -/
def METERS_TO_INCHES_Q : ℚ := 393701 / 10000

/-- A raw record's `dimensions` dictionary (walls use width/height/thickness;
doors use width/height). Missing keys are `none`. -/
structure RawDims where
  width : Option ℝ
  height : Option ℝ
  thickness : Option ℝ

/-- A raw record's `transform.position` dictionary. -/
structure RawPosition where
  x : Option ℝ
  y : Option ℝ
  z : Option ℝ

/-- A raw record's `transform.rotation` dictionary (new format). -/
structure RawRotation where
  yawDegrees : Option ℝ
  yawRadians : Option ℝ

/-- A raw record's `transform` dictionary. -/
structure RawTransform where
  position : Option RawPosition
  matrix : Option (List (List ℝ))
  rotation : Option RawRotation

/-- One raw wall/door/window record. -/
structure RawRecord where
  dimensions : Option RawDims
  transform : Option RawTransform

/-- Direction-vector normalization of `_create_walls_from_data`: normalize
`(m00, m02)` when its magnitude exceeds `0.001`, else fall back to the
horizontal unit vector `(1, 0)`. -/
noncomputable def wallDirection (rx rz : ℝ) : ℝ × ℝ :=
  let len := Real.sqrt (rx * rx + rz * rz)
  if 1 / 1000 < len then (rx / len, rz / len) else (1, 0)

/-- Start/end computation of `_create_walls_from_data`: along the matrix
direction when a matrix with at least 4 rows is present, horizontal fallback
otherwise; `none` when `matrix[0][2]` would raise (first row shorter than 3),
in which case the wall is skipped. -/
noncomputable def wallStartEnd (pos_x pos_z half : ℝ) :
    Option (List (List ℝ)) → Option (Point ℝ × Point ℝ)
  | some m =>
      if 4 ≤ m.length then
        if 3 ≤ (m.headD []).length then
          let d := wallDirection ((m.headD []).getD 0 0) ((m.headD []).getD 2 0)
          some (⟨pos_x - d.1 * half, pos_z - d.2 * half⟩,
                ⟨pos_x + d.1 * half, pos_z + d.2 * half⟩)
        else none
      else some (⟨pos_x - half, pos_z⟩, ⟨pos_x + half, pos_z⟩)
  | none => some (⟨pos_x - half, pos_z⟩, ⟨pos_x + half, pos_z⟩)

/-- The per-wall body of `_create_walls_from_data`: extracts one `Wall` from a
raw record, in inches.  Returns `none` when the source would raise and skip
the record (matrix present with `len(matrix) >= 4` but a first row shorter
than 3, where `matrix[0][2]` raises `IndexError`). -/
noncomputable def create_wall_from_data (wd : RawRecord) : Option (Wall ℝ) :=
  let dims := wd.dimensions.getD ⟨none, none, none⟩
  let wall_width := dims.width.getD 0 * METERS_TO_INCHES
  let wall_height := dims.height.getD 0 * METERS_TO_INCHES
  let wall_thickness := dims.thickness.getD 6
  let tr := wd.transform.getD ⟨none, none, none⟩
  let position := tr.position.getD ⟨none, none, none⟩
  let pos_x := position.x.getD 0 * METERS_TO_INCHES
  let pos_z := position.z.getD 0 * METERS_TO_INCHES
  let half := wall_width / 2
  (wallStartEnd pos_x pos_z half tr.matrix).map fun p =>
    ⟨p.1, p.2, if 0 < wall_thickness then wall_thickness else 6,
      .exterior, .solid, wall_height⟩

/-- `math.atan2 y x` (the two-argument arctangent), idealized over ℝ. -/
noncomputable def atan2 (y x : ℝ) : ℝ :=
  if 0 < x then Real.arctan (y / x)
  else if x < 0 ∧ 0 ≤ y then Real.arctan (y / x) + Real.pi
  else if x < 0 ∧ y < 0 then Real.arctan (y / x) - Real.pi
  else if x = 0 ∧ 0 < y then Real.pi / 2
  else if x = 0 ∧ y < 0 then -(Real.pi / 2)
  else 0

/-- Python's float `%` (floored modulus, result has the divisor's sign),
idealized over ℝ. -/
noncomputable def pymod (a b : ℝ) : ℝ := a - b * ⌊a / b⌋

/-- The matrix fallback of `_extract_rotation_from_matrix` (old format):
`atan2(-right_z, right_x)` in degrees, normalized; `0.0` when the matrix is
missing or malformed. -/
noncomputable def rotFromMatrix : Option (List (List ℝ)) → ℝ
  | none => 0
  | some m =>
      if m.length < 1 ∨ (m.headD []).length < 3 then 0
      else
        let rx := (m.headD []).getD 0 0
        let rz := (m.headD []).getD 2 0
        let ad := atan2 (-rz) rx * (180 / Real.pi)
        if ad < 0 then ad + 360 else ad

/-- `RoomPlanImporter._extract_rotation_from_matrix`: explicit
`rotation.yaw_degrees` first, then `yaw_radians`, then the matrix
derivation, default `0.0`. -/
noncomputable def extract_rotation_from_matrix (t : RawTransform) : ℝ :=
  match t.rotation with
  | some rot =>
      match rot.yawDegrees with
      | some yd =>
          let angle := pymod yd 360
          if angle < 0 then angle + 360 else angle
      | none =>
          match rot.yawRadians with
          | some yr =>
              let ad := yr * (180 / Real.pi)
              let angle := pymod ad 360
              if angle < 0 then angle + 360 else angle
          | none => rotFromMatrix t.matrix
  | none => rotFromMatrix t.matrix

/-- The square of `RoomPlanImporter._point_to_wall_distance` (clamped
point-to-segment distance).  The source returns
`sqrt(dx*dx + dy*dy)`; squares are compared instead, which selects the same
branches and the same minimizing wall since `sqrt` is strictly monotone on
nonnegatives; statements about the distance itself take `Real.sqrt` of this
value. -/
def point_to_wall_distance_sq {α : Type} [LinearOrderedField α]
    (p : Point α) (w : Wall α) : α :=
  let vx := w.stop.x - w.start.x
  let vy := w.stop.y - w.start.y
  let lenSq := vx * vx + vy * vy
  if lenSq < 1 / 1000 then sqDist p w.start
  else
    let px := p.x - w.start.x
    let py := p.y - w.start.y
    let t := max 0 (min 1 ((px * vx + py * vy) / lenSq))
    (p.x - (w.start.x + t * vx)) ^ 2 + (p.y - (w.start.y + t * vy)) ^ 2

/-- `RoomPlanImporter._find_nearest_wall`: linear scan keeping the first
strictly-smaller distance (`min_distance = inf`, `if distance <
min_distance`); `none` on an empty wall list.  No maximum-distance cutoff. -/
def find_nearest_wall {α : Type} [LinearOrderedField α]
    (walls : List (Wall α)) (p : Point α) : Option (Wall α) :=
  (walls.foldl
    (fun acc w =>
      match acc with
      | none => some (w, point_to_wall_distance_sq p w)
      | some best =>
          if point_to_wall_distance_sq p w < best.2 then
            some (w, point_to_wall_distance_sq p w)
          else acc)
    none).map Prod.fst

/-- `RoomPlanImporter._calculate_position_on_wall`: clamped projection
parameter in `[0,1]`; `0.5` for a degenerate (near-point) wall. -/
def calculate_position_on_wall {α : Type} [LinearOrderedField α]
    (w : Wall α) (p : Point α) : α :=
  let vx := w.stop.x - w.start.x
  let vy := w.stop.y - w.start.y
  let lenSq := vx * vx + vy * vy
  if lenSq < 1 / 1000 then 1 / 2
  else
    let px := p.x - w.start.x
    let py := p.y - w.start.y
    max 0 (min 1 ((px * vx + py * vy) / lenSq))

/-- Opening types relevant to `_import_doors` (from `core/geometry.py`
`OpeningType`; members not produced by the importer are omitted from the
model). -/
inductive OpeningType where
  | doorSingle | doorDouble
deriving DecidableEq, Repr

/-- Door width extracted by `_import_doors`:
`dims.get('width', 36) * self.scale_factor` — the inch-denominated default
`36` is also multiplied by the meters→inches factor. -/
noncomputable def door_width (dd : RawRecord) : ℝ :=
  ((dd.dimensions.getD ⟨none, none, none⟩).width.getD 36) * METERS_TO_INCHES

/-- Door height extracted by `_import_doors`:
`dims.get('height', 80) * self.scale_factor`. -/
noncomputable def door_height (dd : RawRecord) : ℝ :=
  ((dd.dimensions.getD ⟨none, none, none⟩).height.getD 80) * METERS_TO_INCHES

/-- Door classification of `_import_doors`: `DOOR_DOUBLE` iff the converted
width exceeds 60 inches. -/
noncomputable def door_type (dd : RawRecord) : OpeningType :=
  if 60 < door_width dd then .doorDouble else .doorSingle

/-- The fold step used by `find_nearest_wall`. -/
def nearestStep {α : Type} [LinearOrderedField α] (p : Point α)
    (acc : Option (Wall α × α)) (w : Wall α) : Option (Wall α × α) :=
  match acc with
  | none => some (w, point_to_wall_distance_sq p w)
  | some best =>
      if point_to_wall_distance_sq p w < best.2 then
        some (w, point_to_wall_distance_sq p w)
      else acc

/-- `ys` is a permutation of `xs` in which individual walls may additionally
have been reversed (via the sequencer's flip, which rebuilds the wall with
start/end swapped). -/
def permUpToRev {α : Type} (xs ys : List (Wall α)) : Prop :=
  ∃ zs : List (Wall α),
    List.Forall₂ (fun w z => w = z ∨ w = flipWall z) ys zs ∧ zs.Perm xs

/-- The concrete four-wall square room used as the C1 witness. -/
def sqWalls : List (Wall ℚ) :=
  [⟨⟨0, 0⟩, ⟨10, 0⟩, 6, .exterior, .solid, 96⟩,
   ⟨⟨10, 0⟩, ⟨10, 10⟩, 6, .exterior, .solid, 96⟩,
   ⟨⟨10, 10⟩, ⟨0, 10⟩, 6, .exterior, .solid, 96⟩,
   ⟨⟨0, 10⟩, ⟨0, 0⟩, 6, .exterior, .solid, 96⟩]

/-- C10: for a door record whose `dimensions.width` and `dimensions.height`
are absent, the created opening's width is `36 * 39.3701 = 1417.3236` inches
and its height is `80 * 39.3701 = 3149.608` inches (the inch-denominated
defaults are multiplied by the meters→inches factor), and the door is
consequently classified as a double door (width > 60 inches). -/
theorem claim_C10_door_default_dimensions (dd : RawRecord)
    (hw : (dd.dimensions.getD ⟨none, none, none⟩).width = none)
    (hh : (dd.dimensions.getD ⟨none, none, none⟩).height = none) :
    door_width dd = 14173236 / 10000 ∧ door_height dd = 31496080 / 10000 ∧
      60 < door_width dd ∧ door_type dd = .doorDouble := by
  have hdw : door_width dd = 14173236 / 10000 := by
    unfold door_width METERS_TO_INCHES
    rw [hw]
    norm_num
  have hdh : door_height dd = 31496080 / 10000 := by
    unfold door_height METERS_TO_INCHES
    rw [hh]
    norm_num
  have h60 : (60 : ℝ) < door_width dd := by rw [hdw]; norm_num
  refine ⟨hdw, hdh, h60, ?_⟩
  unfold door_type
  rw [if_pos h60]

/-- Witness for C10 at a concrete record with absent width and height. -/
theorem claim_C10_witness :
    door_width ⟨some ⟨none, none, none⟩, none⟩ = 14173236 / 10000 ∧
      door_height ⟨some ⟨none, none, none⟩, none⟩ = 31496080 / 10000 ∧
      60 < door_width ⟨some ⟨none, none, none⟩, none⟩ ∧
      door_type ⟨some ⟨none, none, none⟩, none⟩ = .doorDouble :=
  claim_C10_door_default_dimensions ⟨some ⟨none, none, none⟩, none⟩ rfl rfl

/-- C6 counterexample: a wall record with `dimensions.thickness = 2`
(positive).  The extracted wall's thickness is `2`, not
`2 * 39.3701 = 78.7402` as the claim states: `_create_walls_from_data` reads
`dims.get('thickness', 6.0)` without applying the meters→inches factor. -/
theorem claim_C6_counterexample :
    (create_wall_from_data
        ⟨some ⟨some 1, some 1, some 2⟩,
         some ⟨some ⟨some 0, some 0, some 0⟩, none, none⟩⟩).map Wall.thickness
      = some 2 ∧
    (2 : ℝ) ≠ 2 * METERS_TO_INCHES := by
  constructor
  · simp only [create_wall_from_data, wallStartEnd, Option.getD_some, Option.map_some]
    norm_num
  · unfold METERS_TO_INCHES
    norm_num

/-- C6 (amended): the extracted wall's thickness equals the record's
`dimensions.thickness` value unchanged — the meters→inches factor is *not*
applied to thickness — whenever that value is positive, and defaults to `6.0`
when the value is absent or not positive. -/
theorem claim_C6_thickness_not_converted (wd : RawRecord) (wl : Wall ℝ)
    (h : create_wall_from_data wd = some wl) :
    (∀ t, (wd.dimensions.getD ⟨none, none, none⟩).thickness = some t →
        ((0 < t → wl.thickness = t) ∧ (t ≤ 0 → wl.thickness = 6))) ∧
    ((wd.dimensions.getD ⟨none, none, none⟩).thickness = none →
        wl.thickness = 6) := by
  unfold create_wall_from_data at h
  rw [Option.map_eq_some'] at h
  obtain ⟨p, -, hwl⟩ := h
  subst hwl
  constructor
  · intro t ht
    rw [ht]
    constructor
    · intro hpos
      simp only [Option.getD_some]
      rw [if_pos hpos]
    · intro hnp
      simp only [Option.getD_some]
      rw [if_neg (not_lt.mpr hnp)]
  · intro ht
    rw [ht]
    norm_num

/-- Witness for C6 at a concrete record with `thickness = 2`. -/
theorem claim_C6_witness :
    ∃ wl, create_wall_from_data
        ⟨some ⟨some 1, some 1, some 2⟩,
         some ⟨some ⟨some 0, some 0, some 0⟩, none, none⟩⟩ = some wl ∧
      wl.thickness = 2 := by
  have h : ∃ wl, create_wall_from_data
      ⟨some ⟨some 1, some 1, some 2⟩,
       some ⟨some ⟨some 0, some 0, some 0⟩, none, none⟩⟩ = some wl := by
    simp only [create_wall_from_data, wallStartEnd, Option.getD_some, Option.map_some]
    exact ⟨_, rfl⟩
  obtain ⟨wl, hwl⟩ := h
  refine ⟨wl, hwl, ?_⟩
  have := (claim_C6_thickness_not_converted _ wl hwl).1 2 rfl
  exact this.1 (by norm_num)

theorem find_nearest_wall_eq_fold {α : Type} [LinearOrderedField α]
    (walls : List (Wall α)) (p : Point α) :
    find_nearest_wall walls p = (walls.foldl (nearestStep p) none).map Prod.fst := by
  unfold find_nearest_wall nearestStep
  rfl

/-- The scan of `_find_nearest_wall` keeps a wall of minimal (squared)
distance among the carried best and the remaining walls. -/
theorem nearestStep_fold_min {α : Type} [LinearOrderedField α]
    (p : Point α) (l : List (Wall α)) :
    ∀ acc : Wall α × α, acc.2 = point_to_wall_distance_sq p acc.1 →
      ∃ r, l.foldl (nearestStep p) (some acc) = some r ∧
        r.2 = point_to_wall_distance_sq p r.1 ∧
        r.2 ≤ acc.2 ∧
        ∀ w' ∈ l, r.2 ≤ point_to_wall_distance_sq p w' := by
  induction l with
  | nil => intro acc hacc; exact ⟨acc, rfl, hacc, le_refl _, by simp⟩
  | cons w l ih =>
      intro acc hacc
      by_cases hlt : point_to_wall_distance_sq p w < acc.2
      · have hstep : nearestStep p (some acc) w = some (w, point_to_wall_distance_sq p w) :=
          if_pos hlt
        obtain ⟨r, hr, hrd, hrle, hrmin⟩ := ih (w, point_to_wall_distance_sq p w) rfl
        refine ⟨r, ?_, hrd, le_trans hrle (le_of_lt hlt), ?_⟩
        · rw [List.foldl_cons, hstep]; exact hr
        · intro w' hw'
          rcases List.mem_cons.mp hw' with h | h
          · subst h; exact hrle
          · exact hrmin w' h
      · have hstep : nearestStep p (some acc) w = some acc :=
          if_neg hlt
        obtain ⟨r, hr, hrd, hrle, hrmin⟩ := ih acc hacc
        refine ⟨r, ?_, hrd, hrle, ?_⟩
        · rw [List.foldl_cons, hstep]; exact hr
        · intro w' hw'
          rcases List.mem_cons.mp hw' with h | h
          · subst h; exact le_trans hrle (not_lt.mp hlt)
          · exact hrmin w' h

/-- The selected wall is one of the inputs. -/
theorem nearestStep_fold_mem {α : Type} [LinearOrderedField α]
    (p : Point α) (l : List (Wall α)) :
    ∀ acc r : Wall α × α, l.foldl (nearestStep p) (some acc) = some r →
      r.1 = acc.1 ∨ r.1 ∈ l := by
  induction l with
  | nil => intro acc r h; simp at h; rw [← h]; exact Or.inl rfl
  | cons w l ih =>
      intro acc r h
      rw [List.foldl_cons] at h
      by_cases hlt : point_to_wall_distance_sq p w < acc.2
      · rw [show nearestStep p (some acc) w = some (w, point_to_wall_distance_sq p w) from if_pos hlt] at h
        rcases ih _ _ h with h1 | h1
        · exact Or.inr (List.mem_cons.mpr (Or.inl h1))
        · exact Or.inr (List.mem_cons.mpr (Or.inr h1))
      · rw [show nearestStep p (some acc) w = some acc from if_neg hlt] at h
        rcases ih _ _ h with h1 | h1
        · exact Or.inl h1
        · exact Or.inr (List.mem_cons.mpr (Or.inr h1))

/-- The clamped projection parameter always lies in `[0, 1]`. -/
theorem calculate_position_on_wall_mem {α : Type} [LinearOrderedField α]
    (w : Wall α) (p : Point α) :
    0 ≤ calculate_position_on_wall w p ∧ calculate_position_on_wall w p ≤ 1 := by
  unfold calculate_position_on_wall
  by_cases h : (w.stop.x - w.start.x) * (w.stop.x - w.start.x) +
      (w.stop.y - w.start.y) * (w.stop.y - w.start.y) < 1 / 1000
  · rw [if_pos h]
    constructor <;> norm_num
  · rw [if_neg h]
    refine ⟨le_max_left 0 _, max_le (by norm_num) (min_le_left 1 _)⟩

/-- C8: for every door/window point and non-empty finalized wall list,
`_find_nearest_wall` selects some wall (no distance cutoff) minimizing the
clamped point-to-segment distance, and `_calculate_position_on_wall` always
yields a position in `[0, 1]`, including for projections beyond either
endpoint. -/
theorem claim_C8_opening_binding (walls : List (Wall ℚ)) (p : Point ℚ)
    (h : walls ≠ []) :
    ∃ w, find_nearest_wall walls p = some w ∧ w ∈ walls ∧
      (∀ w' ∈ walls,
        Real.sqrt ((point_to_wall_distance_sq p w : ℚ) : ℝ) ≤
          Real.sqrt ((point_to_wall_distance_sq p w' : ℚ) : ℝ)) ∧
      0 ≤ calculate_position_on_wall w p ∧ calculate_position_on_wall w p ≤ 1 := by
  match walls, h with
  | w0 :: rest, _ =>
    have hstart : (w0 :: rest).foldl (nearestStep p) none =
        rest.foldl (nearestStep p) (some (w0, point_to_wall_distance_sq p w0)) := by
      rw [List.foldl_cons]
      rfl
    obtain ⟨r, hr, hrd, hrle, hrmin⟩ :=
      nearestStep_fold_min p rest (w0, point_to_wall_distance_sq p w0) rfl
    have hfind : find_nearest_wall (w0 :: rest) p = some r.1 := by
      rw [find_nearest_wall_eq_fold, hstart, hr]
      rfl
    have hmem : r.1 ∈ w0 :: rest := by
      rcases nearestStep_fold_mem p rest (w0, point_to_wall_distance_sq p w0) r hr with h1 | h1
      · rw [h1]; exact List.mem_cons_self _ _
      · exact List.mem_cons.mpr (Or.inr h1)
    refine ⟨r.1, hfind, hmem, ?_, calculate_position_on_wall_mem r.1 p⟩
    intro w' hw'
    have hq : point_to_wall_distance_sq p r.1 ≤ point_to_wall_distance_sq p w' := by
      rw [← hrd]
      rcases List.mem_cons.mp hw' with h1 | h1
      · rw [h1]; exact hrle
      · exact hrmin w' h1
    exact Real.sqrt_le_sqrt (by exact_mod_cast hq)

/-- Witness for C8 at a concrete one-wall list and exterior point. -/
theorem claim_C8_witness :
    ∃ w, find_nearest_wall
          [(⟨⟨0, 0⟩, ⟨10, 0⟩, 6, .exterior, .solid, 96⟩ : Wall ℚ)] ⟨20, 5⟩ = some w ∧
      w ∈ [(⟨⟨0, 0⟩, ⟨10, 0⟩, 6, .exterior, .solid, 96⟩ : Wall ℚ)] ∧
      (∀ w' ∈ [(⟨⟨0, 0⟩, ⟨10, 0⟩, 6, .exterior, .solid, 96⟩ : Wall ℚ)],
        Real.sqrt ((point_to_wall_distance_sq ⟨20, 5⟩ w : ℚ) : ℝ) ≤
          Real.sqrt ((point_to_wall_distance_sq ⟨20, 5⟩ w' : ℚ) : ℝ)) ∧
      0 ≤ calculate_position_on_wall w ⟨20, 5⟩ ∧
      calculate_position_on_wall w ⟨20, 5⟩ ≤ 1 :=
  claim_C8_opening_binding _ _ (List.cons_ne_nil _ _)

/-- Python's float `%` with positive divisor lands in `[0, b)`. -/
theorem pymod_mem (a b : ℝ) (hb : 0 < b) : 0 ≤ pymod a b ∧ pymod a b < b := by
  unfold pymod
  have hfr : a - b * ⌊a / b⌋ = b * Int.fract (a / b) := by
    unfold Int.fract
    rw [mul_sub, mul_div_cancel₀ a (ne_of_gt hb)]
  rw [hfr]
  constructor
  · exact mul_nonneg (le_of_lt hb) (Int.fract_nonneg _)
  · calc b * Int.fract (a / b) < b * 1 :=
          (mul_lt_mul_left hb).mpr (Int.fract_lt_one _)
      _ = b := mul_one b

/-- `math.atan2` lands in `[-π, π]`. -/
theorem atan2_mem (y x : ℝ) : -Real.pi ≤ atan2 y x ∧ atan2 y x ≤ Real.pi := by
  have hpi : 0 < Real.pi := Real.pi_pos
  have harc1 : ∀ z : ℝ, Real.arctan z < Real.pi / 2 := Real.arctan_lt_pi_div_two
  have harc2 : ∀ z : ℝ, -(Real.pi / 2) < Real.arctan z := Real.neg_pi_div_two_lt_arctan
  have harcle : ∀ z : ℝ, z ≤ 0 → Real.arctan z ≤ 0 := fun z hz =>
    le_of_le_of_eq (Real.arctan_strictMono.monotone hz) Real.arctan_zero
  have harcge : ∀ z : ℝ, 0 ≤ z → 0 ≤ Real.arctan z := fun z hz =>
    le_of_eq_of_le Real.arctan_zero.symm (Real.arctan_strictMono.monotone hz)
  unfold atan2
  by_cases h1 : 0 < x
  · rw [if_pos h1]
    constructor
    · linarith [harc2 (y / x)]
    · linarith [harc1 (y / x)]
  rw [if_neg h1]
  by_cases h2 : x < 0 ∧ 0 ≤ y
  · rw [if_pos h2]
    have harg : y / x ≤ 0 := div_nonpos_iff.mpr (Or.inl ⟨h2.2, le_of_lt h2.1⟩)
    have := harcle _ harg
    constructor
    · linarith [harc2 (y / x)]
    · linarith
  rw [if_neg h2]
  by_cases h3 : x < 0 ∧ y < 0
  · rw [if_pos h3]
    have harg : 0 ≤ y / x := le_of_lt (div_pos_of_neg_of_neg h3.2 h3.1)
    have := harcge _ harg
    constructor
    · linarith
    · linarith [harc1 (y / x)]
  rw [if_neg h3]
  by_cases h4 : x = 0 ∧ 0 < y
  · rw [if_pos h4]
    constructor <;> linarith
  rw [if_neg h4]
  by_cases h5 : x = 0 ∧ y < 0
  · rw [if_pos h5]
    constructor <;> linarith
  · rw [if_neg h5]
    constructor <;> linarith

theorem rotFromMatrix_some (mm : List (List ℝ)) :
    rotFromMatrix (some mm) =
      if mm.length < 1 ∨ (mm.headD []).length < 3 then 0
      else
        if atan2 (-(mm.headD []).getD 2 0) ((mm.headD []).getD 0 0) *
              (180 / Real.pi) < 0 then
          atan2 (-(mm.headD []).getD 2 0) ((mm.headD []).getD 0 0) *
              (180 / Real.pi) + 360
        else
          atan2 (-(mm.headD []).getD 2 0) ((mm.headD []).getD 0 0) *
              (180 / Real.pi) := rfl

/-- The matrix-derived rotation lands in `[0, 360)`. -/
theorem rotFromMatrix_mem (m : Option (List (List ℝ))) :
    0 ≤ rotFromMatrix m ∧ rotFromMatrix m < 360 := by
  match m with
  | none =>
      exact ⟨le_refl 0, by rw [show rotFromMatrix none = (0 : ℝ) from rfl]; norm_num⟩
  | some mm =>
    rw [rotFromMatrix_some]
    by_cases hg : mm.length < 1 ∨ (mm.headD []).length < 3
    · rw [if_pos hg]
      exact ⟨le_refl 0, by norm_num⟩
    · rw [if_neg hg]
      have hpi : 0 < Real.pi := Real.pi_pos
      obtain ⟨ha1, ha2⟩ := atan2_mem (-(mm.headD []).getD 2 0) ((mm.headD []).getD 0 0)
      set a := atan2 (-(mm.headD []).getD 2 0) ((mm.headD []).getD 0 0) with ha
      have h180 : Real.pi * (180 / Real.pi) = 180 := by
        rw [mul_comm, div_mul_cancel₀ _ Real.pi_ne_zero]
      have hd1 : -(180 : ℝ) ≤ a * (180 / Real.pi) := by
        calc -(180 : ℝ) = -Real.pi * (180 / Real.pi) := by rw [neg_mul, h180]
          _ ≤ a * (180 / Real.pi) :=
              mul_le_mul_of_nonneg_right ha1 (by positivity)
      have hd2 : a * (180 / Real.pi) ≤ 180 := by
        calc a * (180 / Real.pi) ≤ Real.pi * (180 / Real.pi) :=
              mul_le_mul_of_nonneg_right ha2 (by positivity)
          _ = 180 := h180
      by_cases hneg : a * (180 / Real.pi) < 0
      · rw [if_pos hneg]
        constructor <;> linarith
      · rw [if_neg hneg]
        constructor <;> linarith

theorem extract_rotation_yaw_deg (pos : Option RawPosition)
    (mat : Option (List (List ℝ))) (yd : ℝ) (yr : Option ℝ) :
    extract_rotation_from_matrix ⟨pos, mat, some ⟨some yd, yr⟩⟩ =
      if pymod yd 360 < 0 then pymod yd 360 + 360 else pymod yd 360 := rfl

theorem extract_rotation_yaw_rad (pos : Option RawPosition)
    (mat : Option (List (List ℝ))) (yr : ℝ) :
    extract_rotation_from_matrix ⟨pos, mat, some ⟨none, some yr⟩⟩ =
      if pymod (yr * (180 / Real.pi)) 360 < 0 then
        pymod (yr * (180 / Real.pi)) 360 + 360
      else pymod (yr * (180 / Real.pi)) 360 := rfl

theorem extract_rotation_no_rotation (pos : Option RawPosition)
    (mat : Option (List (List ℝ))) :
    extract_rotation_from_matrix ⟨pos, mat, none⟩ = rotFromMatrix mat := rfl

theorem extract_rotation_empty_rotation (pos : Option RawPosition)
    (mat : Option (List (List ℝ))) :
    extract_rotation_from_matrix ⟨pos, mat, some ⟨none, none⟩⟩ =
      rotFromMatrix mat := rfl

/-- C9: `_extract_rotation_from_matrix` gives precedence to an explicit
`rotation.yaw_degrees` field (the result is that value normalized modulo 360,
regardless of any matrix present), and on every input — yaw degrees, yaw
radians, matrix-derived via `atan2(-right_z, right_x)`, or the `0.0`
default — the result lies in `[0, 360)`. -/
theorem claim_C9_rotation_precedence_and_range (t : RawTransform) :
    (∀ rot yd, t.rotation = some rot → rot.yawDegrees = some yd →
        extract_rotation_from_matrix t = pymod yd 360) ∧
    0 ≤ extract_rotation_from_matrix t ∧ extract_rotation_from_matrix t < 360 := by
  obtain ⟨pos, mat, rot⟩ := t
  match rot with
  | none =>
      refine ⟨fun rot yd h => by simp at h, ?_⟩
      rw [extract_rotation_no_rotation]
      exact rotFromMatrix_mem mat
  | some ⟨some yd, yr⟩ =>
      obtain ⟨hm0, hm1⟩ := pymod_mem yd 360 (by norm_num)
      have heq : extract_rotation_from_matrix ⟨pos, mat, some ⟨some yd, yr⟩⟩ =
          pymod yd 360 := by
        rw [extract_rotation_yaw_deg, if_neg (not_lt.mpr hm0)]
      refine ⟨fun rot' yd' h1 h2 => ?_, ?_⟩
      · have h1' : rot' = ⟨some yd, yr⟩ := by
          have := Option.some.inj h1
          exact this.symm
        subst h1'
        have h2' : yd' = yd := (Option.some.inj h2).symm
        subst h2'
        exact heq
      · rw [heq]; exact ⟨hm0, hm1⟩
  | some ⟨none, some yr⟩ =>
      obtain ⟨hm0, hm1⟩ := pymod_mem (yr * (180 / Real.pi)) 360 (by norm_num)
      refine ⟨fun rot' yd' h1 h2 => ?_, ?_⟩
      · have h1' : rot' = ⟨none, some yr⟩ := (Option.some.inj h1).symm
        subst h1'
        simp at h2
      · rw [extract_rotation_yaw_rad, if_neg (not_lt.mpr hm0)]
        exact ⟨hm0, hm1⟩
  | some ⟨none, none⟩ =>
      refine ⟨fun rot' yd' h1 h2 => ?_, ?_⟩
      · have h1' : rot' = ⟨none, none⟩ := (Option.some.inj h1).symm
        subst h1'
        simp at h2
      · rw [extract_rotation_empty_rotation]
        exact rotFromMatrix_mem mat

/-- Witness for C9: a transform carrying both `yaw_degrees = 90` and a
matrix whose first row implies a different angle. -/
theorem claim_C9_witness :
    extract_rotation_from_matrix
        ⟨none, some [[0, 0, -1, 0], [0, 1, 0, 0], [1, 0, 0, 0], [0, 0, 0, 1]],
         some ⟨some 90, none⟩⟩ = pymod 90 360 ∧
      0 ≤ extract_rotation_from_matrix
        ⟨none, some [[0, 0, -1, 0], [0, 1, 0, 0], [1, 0, 0, 0], [0, 0, 0, 1]],
         some ⟨some 90, none⟩⟩ :=
  ⟨(claim_C9_rotation_precedence_and_range _).1 ⟨some 90, none⟩ 90 rfl rfl,
   (claim_C9_rotation_precedence_and_range _).2.1⟩

theorem wallStartEnd_some (px pz h : ℝ) (m : List (List ℝ)) :
    wallStartEnd px pz h (some m) =
      if 4 ≤ m.length then
        if 3 ≤ (m.headD []).length then
          some (⟨px - (wallDirection ((m.headD []).getD 0 0)
                        ((m.headD []).getD 2 0)).1 * h,
                 pz - (wallDirection ((m.headD []).getD 0 0)
                        ((m.headD []).getD 2 0)).2 * h⟩,
                ⟨px + (wallDirection ((m.headD []).getD 0 0)
                        ((m.headD []).getD 2 0)).1 * h,
                 pz + (wallDirection ((m.headD []).getD 0 0)
                        ((m.headD []).getD 2 0)).2 * h⟩)
        else none
      else some (⟨px - h, pz⟩, ⟨px + h, pz⟩) := rfl

/-- The direction vector produced by `wallDirection` always has unit norm:
either it is a normalization of a vector of magnitude `> 0.001`, or it is the
horizontal fallback `(1, 0)`. -/
theorem wallDirection_unit (rx rz : ℝ) :
    (wallDirection rx rz).1 ^ 2 + (wallDirection rx rz).2 ^ 2 = 1 := by
  unfold wallDirection
  set L := Real.sqrt (rx * rx + rz * rz) with hL
  by_cases hgt : 1 / 1000 < L
  · rw [if_pos hgt]
    have hL0 : (0 : ℝ) < L := lt_trans (by norm_num) hgt
    have hsq : L ^ 2 = rx * rx + rz * rz := by
      rw [hL]
      exact Real.sq_sqrt (add_nonneg (mul_self_nonneg rx) (mul_self_nonneg rz))
    field_simp
    linarith [hsq]
  · rw [if_neg hgt]
    norm_num

/-- C7: for every raw wall record with `dimensions.width = w` meters (w ≥ 0)
and a present matrix of at least 4 rows whose first row has at least 3
entries, the extracted wall exists and its length (Euclidean start-to-end
distance) equals `w * 39.3701` inches exactly — whether the direction comes
from normalizing `(m00, m02)` or from the `(1, 0)` fallback. -/
theorem claim_C7_wall_length (wd : RawRecord) (w : ℝ) (m : List (List ℝ))
    (hw : (wd.dimensions.getD ⟨none, none, none⟩).width = some w)
    (hw0 : 0 ≤ w)
    (hm : (wd.transform.getD ⟨none, none, none⟩).matrix = some m)
    (hlen : 4 ≤ m.length) (hrow : 3 ≤ (m.headD []).length) :
    ∃ wl, create_wall_from_data wd = some wl ∧
      Real.sqrt (sqDist wl.start wl.stop) = w * METERS_TO_INCHES := by
  have hM : (0 : ℝ) < METERS_TO_INCHES := by unfold METERS_TO_INCHES; norm_num
  have hwidth : 0 ≤ w * METERS_TO_INCHES := mul_nonneg hw0 (le_of_lt hM)
  set rx := (m.headD []).getD 0 0 with hrx
  set rz := (m.headD []).getD 2 0 with hrz
  set pos_x := ((wd.transform.getD ⟨none, none, none⟩).position.getD
      ⟨none, none, none⟩).x.getD 0 * METERS_TO_INCHES with hpx
  set pos_z := ((wd.transform.getD ⟨none, none, none⟩).position.getD
      ⟨none, none, none⟩).z.getD 0 * METERS_TO_INCHES with hpz
  set half := w * METERS_TO_INCHES / 2 with hhalf
  have hcreate : create_wall_from_data wd =
      some ⟨⟨pos_x - (wallDirection rx rz).1 * half,
             pos_z - (wallDirection rx rz).2 * half⟩,
            ⟨pos_x + (wallDirection rx rz).1 * half,
             pos_z + (wallDirection rx rz).2 * half⟩,
            if 0 < (wd.dimensions.getD ⟨none, none, none⟩).thickness.getD 6
              then (wd.dimensions.getD ⟨none, none, none⟩).thickness.getD 6
              else 6,
            .exterior, .solid,
            (wd.dimensions.getD ⟨none, none, none⟩).height.getD 0 *
              METERS_TO_INCHES⟩ := by
    simp only [create_wall_from_data]
    rw [hm, wallStartEnd_some, if_pos hlen, if_pos hrow, hw]
    simp only [Option.getD_some, Option.map_some, Option.map_some']
  refine ⟨_, hcreate, ?_⟩
  have hd := wallDirection_unit rx rz
  have hsq : sqDist
      (⟨pos_x - (wallDirection rx rz).1 * half,
        pos_z - (wallDirection rx rz).2 * half⟩ : Point ℝ)
      ⟨pos_x + (wallDirection rx rz).1 * half,
        pos_z + (wallDirection rx rz).2 * half⟩ = (w * METERS_TO_INCHES) ^ 2 := by
    unfold sqDist
    simp only
    have expand : ∀ X Z h d1 d2 : ℝ,
        (X - d1 * h - (X + d1 * h)) ^ 2 + (Z - d2 * h - (Z + d2 * h)) ^ 2 =
          (2 * h) ^ 2 * (d1 ^ 2 + d2 ^ 2) := by intros; ring
    rw [expand, hd, mul_one, hhalf]
    ring
  rw [hsq]
  exact Real.sqrt_sq hwidth

/-- Witness for C7 at a concrete 2m-wide wall record with identity matrix. -/
theorem claim_C7_witness :
    ∃ wl, create_wall_from_data
        ⟨some ⟨some 2, some 1, none⟩,
         some ⟨some ⟨some 0, some 0, some 0⟩,
               some [[1, 0, 0, 0], [0, 1, 0, 0], [0, 0, 1, 0], [0, 0, 0, 1]],
               none⟩⟩ = some wl ∧
      Real.sqrt (sqDist wl.start wl.stop) = 2 * METERS_TO_INCHES :=
  claim_C7_wall_length _ 2 _ rfl (by norm_num) rfl (by norm_num) (by norm_num)

/-- Each inner snap step either leaves the state unchanged or increments the
snap counter. -/
theorem snapInner_id_or_succ {α : Type} [LinearOrderedField α] (tol : α)
    (p1 : Point α) (i : ℕ) (st : List (Point α) × ℕ) (j : ℕ) :
    snapInner tol p1 i st j = st ∨ (snapInner tol p1 i st j).2 = st.2 + 1 := by
  unfold snapInner
  by_cases h : snapCond (sqDist p1 (st.1.getD j ⟨0, 0⟩)) tol
  · rw [if_pos h]
    exact Or.inr rfl
  · rw [if_neg h]
    exact Or.inl rfl

/-- A fold whose steps are monotone in a counter and are the identity
whenever they keep the counter: the whole fold is monotone in the counter
and is the identity when it keeps the counter. -/
theorem foldl_counter_fix {σ β : Type} (c : σ → ℕ) (f : σ → β → σ)
    (hf : ∀ st a, c st ≤ c (f st a) ∧ (c (f st a) = c st → f st a = st)) :
    ∀ (l : List β) (st : σ), c st ≤ c (l.foldl f st) ∧
      (c (l.foldl f st) = c st → l.foldl f st = st) := by
  intro l
  induction l with
  | nil => intro st; exact ⟨le_refl _, fun _ => rfl⟩
  | cons a l ih =>
      intro st
      rw [List.foldl_cons]
      obtain ⟨h1, h2⟩ := hf st a
      obtain ⟨h3, h4⟩ := ih (f st a)
      refine ⟨le_trans h1 h3, fun he => ?_⟩
      have hc1 : c (f st a) = c st := le_antisymm (he ▸ h3) h1
      have hst : f st a = st := h2 hc1
      rw [hst] at h3 h4 he ⊢
      exact h4 he

/-- The inner fold of one outer iteration satisfies the counter-fix
property. -/
theorem snapOuter_counter_fix {α : Type} [LinearOrderedField α] (tol : α)
    (n : ℕ) (st : List (Point α) × ℕ) (i : ℕ) :
    st.2 ≤ (snapOuter tol n st i).2 ∧
      ((snapOuter tol n st i).2 = st.2 → snapOuter tol n st i = st) := by
  unfold snapOuter
  exact foldl_counter_fix Prod.snd (snapInner tol (st.1.getD i ⟨0, 0⟩) i)
    (fun s a => by
      rcases snapInner_id_or_succ tol (st.1.getD i ⟨0, 0⟩) i s a with h | h
      · rw [h]; exact ⟨le_refl _, fun _ => rfl⟩
      · exact ⟨h ▸ Nat.le_succ _, fun he => absurd (he ▸ h) (Nat.succ_ne_self _).symm⟩)
    _ st

/-- A zero-count snap pass leaves the endpoint list unchanged. -/
theorem snapPass_zero_fix {α : Type} [LinearOrderedField α]
    (eps : List (Point α)) (tol : α) (h : (snapPass eps tol).2 = 0) :
    snapPass eps tol = (eps, 0) := by
  unfold snapPass at *
  have := foldl_counter_fix (σ := List (Point α) × ℕ) Prod.snd
    (snapOuter tol eps.length)
    (fun s a => snapOuter_counter_fix tol eps.length s a)
    (List.range' 0 eps.length) (eps, 0)
  exact this.2 h

/-- Writing a wall list's own endpoints back into it is the identity. -/
theorem writeBack_epsOf {α : Type} (walls : List (Wall α)) :
    writeBack walls (epsOf walls) = walls := by
  induction walls with
  | nil => rfl
  | cons w ws ih =>
      show ({ w with start := w.start, stop := w.stop } :: writeBack ws (epsOf ws)) = w :: ws
      rw [ih]

/-- C4 counterexample: three endpoints chained within tolerance (walls
`(0,0)–(100,0)` and `(1.8,0)–(2.6,0)`, tolerance `2`).  The first pass snaps
`(0,0)/(1.8,0)` to `(0.9,0)` and then the *updated* `(0.9,0)` endpoint with
`(2.6,0)` to `(1.75,0)`, leaving `(0.9,0)` and `(1.75,0)` within tolerance;
the second pass therefore performs two further snaps and moves endpoints,
refuting idempotence. -/
theorem claim_C4_counterexample :
    (snap_corners [(⟨⟨0, 0⟩, ⟨100, 0⟩, 6, .exterior, .solid, 96⟩ : Wall ℚ),
                   ⟨⟨9/5, 0⟩, ⟨13/5, 0⟩, 6, .exterior, .solid, 96⟩] 2).1 =
      [⟨⟨9/10, 0⟩, ⟨100, 0⟩, 6, .exterior, .solid, 96⟩,
       ⟨⟨7/4, 0⟩, ⟨7/4, 0⟩, 6, .exterior, .solid, 96⟩] ∧
    (snap_corners [(⟨⟨9/10, 0⟩, ⟨100, 0⟩, 6, .exterior, .solid, 96⟩ : Wall ℚ),
                   ⟨⟨7/4, 0⟩, ⟨7/4, 0⟩, 6, .exterior, .solid, 96⟩] 2).2 ≠ 0 ∧
    (snap_corners [(⟨⟨9/10, 0⟩, ⟨100, 0⟩, 6, .exterior, .solid, 96⟩ : Wall ℚ),
                   ⟨⟨7/4, 0⟩, ⟨7/4, 0⟩, 6, .exterior, .solid, 96⟩] 2).1 ≠
      [⟨⟨9/10, 0⟩, ⟨100, 0⟩, 6, .exterior, .solid, 96⟩,
       ⟨⟨7/4, 0⟩, ⟨7/4, 0⟩, 6, .exterior, .solid, 96⟩] := by
  refine ⟨?_, ?_, ?_⟩ <;>
    norm_num [snap_corners, snapPass, snapOuter, snapInner, snapCond, epsOf,
      writeBack, sqDist, midP, List.range', List.getD, List.foldl, List.set,
      List.cons_ne_nil, Point.mk.injEq, Wall.mk.injEq]

/-- C4 (amended): `_snap_corners` is idempotent exactly on its zero-snap
inputs: whenever a pass performs zero snap operations it moves no endpoint,
and a second pass with the same tolerance is again a zero-snap no-op.  (Full
idempotence as claimed fails: when three or more endpoints chain within
tolerance, a pass can leave two endpoints within tolerance, and a second pass
moves them — see the counterexample.) -/
theorem claim_C4_snap_zero_snaps_fixed_point {α : Type} [LinearOrderedField α]
    (walls : List (Wall α)) (tol : α)
    (h : (snap_corners walls tol).2 = 0) :
    (snap_corners walls tol).1 = walls ∧
      snap_corners (snap_corners walls tol).1 tol = (walls, 0) := by
  by_cases hnil : walls = []
  · subst hnil
    constructor
    · rfl
    · rfl
  · have hbody : snap_corners walls tol =
        (writeBack walls (snapPass (epsOf walls) tol).1,
          (snapPass (epsOf walls) tol).2) := by
      unfold snap_corners
      rw [if_neg hnil]
    have hz : (snapPass (epsOf walls) tol).2 = 0 := by
      rw [hbody] at h
      exact h
    have hfix := snapPass_zero_fix (epsOf walls) tol hz
    have h1 : (snap_corners walls tol).1 = walls := by
      rw [hbody]
      show writeBack walls (snapPass (epsOf walls) tol).1 = walls
      rw [hfix]
      exact writeBack_epsOf walls
    refine ⟨h1, ?_⟩
    rw [h1]
    rw [hbody, hfix]
    show (writeBack walls (epsOf walls), 0) = (walls, 0)
    rw [writeBack_epsOf walls]

/-- Witness for C4 at a concrete zero-snap input (two far-apart walls). -/
theorem claim_C4_witness :
    (snap_corners [(⟨⟨0, 0⟩, ⟨100, 0⟩, 6, .exterior, .solid, 96⟩ : Wall ℚ),
                   ⟨⟨200, 0⟩, ⟨300, 0⟩, 6, .exterior, .solid, 96⟩] 2).1 =
      [⟨⟨0, 0⟩, ⟨100, 0⟩, 6, .exterior, .solid, 96⟩,
       ⟨⟨200, 0⟩, ⟨300, 0⟩, 6, .exterior, .solid, 96⟩] ∧
    snap_corners
        (snap_corners [(⟨⟨0, 0⟩, ⟨100, 0⟩, 6, .exterior, .solid, 96⟩ : Wall ℚ),
                       ⟨⟨200, 0⟩, ⟨300, 0⟩, 6, .exterior, .solid, 96⟩] 2).1 2 =
      ([⟨⟨0, 0⟩, ⟨100, 0⟩, 6, .exterior, .solid, 96⟩,
        ⟨⟨200, 0⟩, ⟨300, 0⟩, 6, .exterior, .solid, 96⟩], 0) :=
  claim_C4_snap_zero_snaps_fixed_point _ 2 (by
    norm_num [snap_corners, snapPass, snapOuter, snapInner, snapCond, epsOf,
      writeBack, sqDist, midP, List.range', List.getD, List.foldl, List.set,
      List.cons_ne_nil])

theorem getD_set_ne {γ : Type} (l : List γ) (i j : ℕ) (x d : γ) (h : i ≠ j) :
    (l.set i x).getD j d = l.getD j d := by
  unfold List.getD
  rw [List.get?_eq_getElem?, List.get?_eq_getElem?, List.getElem?_set_ne h]

theorem getD_set_self {γ : Type} (l : List γ) (j : ℕ) (x d : γ)
    (h : j < l.length) : (l.set j x).getD j d = x := by
  unfold List.getD
  rw [List.get?_eq_getElem?, List.getElem?_set_self', List.getElem?_eq_getElem h]
  rfl

theorem range'_split (s p q : ℕ) :
    List.range' s (p + q) = List.range' s p ++ List.range' (s + p) q := by
  rw [Nat.add_comm p q]
  exact (List.range'_append_1 s p q).symm

theorem sqDist_comm {α : Type} [CommRing α] (p q : Point α) :
    sqDist p q = sqDist q p := by
  unfold sqDist
  ring

/-- An inner-loop run over indices at which the snap condition fails (against
the fixed stale `point1`) leaves the state unchanged. -/
theorem innerFold_id {α : Type} [LinearOrderedField α] (tol : α)
    (p1 : Point α) (i : ℕ) (st : List (Point α) × ℕ) (rng : List ℕ) :
    (∀ j ∈ rng, ¬ snapCond (sqDist p1 (st.1.getD j ⟨0, 0⟩)) tol) →
      rng.foldl (snapInner tol p1 i) st = st := by
  induction rng with
  | nil => intro _; rfl
  | cons j rng ih =>
      intro h
      rw [List.foldl_cons]
      have hstep : snapInner tol p1 i st j = st := by
        unfold snapInner
        rw [if_neg (h j (List.mem_cons_self _ _))]
      rw [hstep]
      exact ih fun j' hj' => h j' (List.mem_cons.mpr (Or.inr hj'))

/-- An outer-loop run all of whose iterations are no-ops from a given state
leaves that state unchanged. -/
theorem outerFold_id {α : Type} [LinearOrderedField α] (tol : α) (n : ℕ)
    (st : List (Point α) × ℕ) (rng : List ℕ) :
    (∀ i ∈ rng, snapOuter tol n st i = st) →
      rng.foldl (snapOuter tol n) st = st := by
  induction rng with
  | nil => intro _; rfl
  | cons i rng ih =>
      intro h
      rw [List.foldl_cons, h i (List.mem_cons_self _ _)]
      exact ih fun i' hi' => h i' (List.mem_cons.mpr (Or.inr hi'))

/-- A full snap pass over an endpoint list in which exactly one (unordered)
index pair `(a, b)` satisfies the snap condition, and whose midpoint is not
within tolerance of any other endpoint, performs exactly that one snap. -/
theorem snapPass_single_pair {α : Type} [LinearOrderedField α]
    (eps : List (Point α)) (tol : α) (a b : ℕ)
    (hab : a < b) (hbn : b < eps.length)
    (hcond : snapCond (sqDist (eps.getD a ⟨0, 0⟩) (eps.getD b ⟨0, 0⟩)) tol)
    (hother : ∀ k l, k < l → l < eps.length → ¬(k = a ∧ l = b) →
        ¬ snapCond (sqDist (eps.getD k ⟨0, 0⟩) (eps.getD l ⟨0, 0⟩)) tol)
    (hmid : ∀ k, k < eps.length → k ≠ a → k ≠ b →
        ¬ snapCond (sqDist (midP (eps.getD a ⟨0, 0⟩) (eps.getD b ⟨0, 0⟩))
            (eps.getD k ⟨0, 0⟩)) tol) :
    snapPass eps tol =
      ((eps.set a (midP (eps.getD a ⟨0, 0⟩) (eps.getD b ⟨0, 0⟩))).set b
          (midP (eps.getD a ⟨0, 0⟩) (eps.getD b ⟨0, 0⟩)), 1) := by
  set n := eps.length with hn
  set m := midP (eps.getD a ⟨0, 0⟩) (eps.getD b ⟨0, 0⟩) with hm
  set st1 : List (Point α) × ℕ := ((eps.set a m).set b m, 1) with hst1
  have han : a < n := lt_trans hab hbn
  -- endpoint reads from the post-snap state
  have hget : ∀ j, j ≠ a → j ≠ b → st1.1.getD j ⟨0, 0⟩ = eps.getD j ⟨0, 0⟩ := by
    intro j hja hjb
    show ((eps.set a m).set b m).getD j ⟨0, 0⟩ = eps.getD j ⟨0, 0⟩
    rw [getD_set_ne _ _ _ _ _ (Ne.symm hjb), getD_set_ne _ _ _ _ _ (Ne.symm hja)]
  have hgetb : st1.1.getD b ⟨0, 0⟩ = m := by
    show ((eps.set a m).set b m).getD b ⟨0, 0⟩ = m
    rw [getD_set_self]
    rw [List.length_set]
    exact hbn
  -- range decompositions
  have hdec1 : List.range' 0 n = List.range' 0 a ++ List.range' a (n - a) := by
    have h := range'_split 0 a (n - a)
    rw [Nat.zero_add] at h
    rw [← h]
    congr 1
    omega
  have hdec2 : List.range' a (n - a) = a :: List.range' (a + 1) (n - (a + 1)) := by
    rw [show n - a = (n - (a + 1)) + 1 by omega]
    rfl
  have hdec3 : List.range' (a + 1) (n - (a + 1)) =
      List.range' (a + 1) (b - (a + 1)) ++ List.range' b (n - b) := by
    have h := range'_split (a + 1) (b - (a + 1)) (n - b)
    rw [show (a + 1) + (b - (a + 1)) = b by omega] at h
    rw [← h]
    congr 1
    omega
  have hdec4 : List.range' b (n - b) = b :: List.range' (b + 1) (n - (b + 1)) := by
    rw [show n - b = (n - (b + 1)) + 1 by omega]
    rfl
  -- iterations before `a` leave the initial state unchanged
  have hphase1 : (List.range' 0 a).foldl (snapOuter tol n) (eps, 0) = (eps, 0) := by
    apply outerFold_id
    intro i hi
    obtain ⟨-, hi2⟩ := List.mem_range'_1.mp hi
    rw [Nat.zero_add] at hi2
    unfold snapOuter
    apply innerFold_id
    intro j hj
    obtain ⟨hj1, hj2⟩ := List.mem_range'_1.mp hj
    have hjn : j < n := by omega
    exact hother i j (by omega) hjn (by omega)
  -- iteration `a` performs exactly the single snap
  have hphase2 : snapOuter tol n (eps, 0) a = st1 := by
    unfold snapOuter
    show (List.range' (a + 1) (n - (a + 1))).foldl
        (snapInner tol (eps.getD a ⟨0, 0⟩) a) (eps, 0) = st1
    rw [hdec3, List.foldl_append, hdec4]
    have hpart1 : (List.range' (a + 1) (b - (a + 1))).foldl
        (snapInner tol (eps.getD a ⟨0, 0⟩) a) (eps, 0) = (eps, 0) := by
      apply innerFold_id
      intro j hj
      obtain ⟨hj1, hj2⟩ := List.mem_range'_1.mp hj
      exact hother a j (by omega) (by omega) (by omega)
    rw [hpart1, List.foldl_cons]
    have hsnap : snapInner tol (eps.getD a ⟨0, 0⟩) a (eps, 0) b = st1 := by
      unfold snapInner
      rw [if_pos hcond]
    rw [hsnap]
    apply innerFold_id
    intro j hj
    obtain ⟨hj1, hj2⟩ := List.mem_range'_1.mp hj
    rw [hget j (by omega) (by omega)]
    exact hother a j (by omega) (by omega) (by omega)
  -- iterations after `a` leave the snapped state unchanged
  have hphase3 : (List.range' (a + 1) (n - (a + 1))).foldl
      (snapOuter tol n) st1 = st1 := by
    apply outerFold_id
    intro i hi
    obtain ⟨hi1, hi2⟩ := List.mem_range'_1.mp hi
    have hin : i < n := by omega
    unfold snapOuter
    by_cases hib : i = b
    · subst hib
      rw [hgetb]
      apply innerFold_id
      intro j hj
      obtain ⟨hj1, hj2⟩ := List.mem_range'_1.mp hj
      rw [hget j (by omega) (by omega)]
      exact hmid j (by omega) (by omega) (by omega)
    · rw [hget i (by omega) hib]
      apply innerFold_id
      intro j hj
      obtain ⟨hj1, hj2⟩ := List.mem_range'_1.mp hj
      by_cases hjb : j = b
      · subst hjb
        rw [hgetb, sqDist_comm]
        exact hmid i hin (by omega) hib
      · rw [hget j (by omega) hjb]
        exact hother i j (by omega) (by omega) (by omega)
  show (List.range' 0 n).foldl (snapOuter tol n) (eps, 0) = st1
  rw [hdec1, List.foldl_append, hphase1, hdec2, List.foldl_cons, hphase2, hphase3]

/-- Writing back an endpoint list of matching length gives a wall list with
exactly those endpoints. -/
theorem epsOf_writeBack {α : Type} :
    ∀ (walls : List (Wall α)) (eps : List (Point α)),
      eps.length = (epsOf walls).length → epsOf (writeBack walls eps) = eps := by
  intro walls
  induction walls with
  | nil =>
      intro eps h
      have : eps = [] := List.length_eq_zero.mp h
      subst this
      rfl
  | cons w ws ih =>
      intro eps h
      match eps, h with
      | e1 :: e2 :: rest, h =>
        show e1 :: e2 :: epsOf (writeBack ws rest) = e1 :: e2 :: rest
        have hlen : rest.length = (epsOf ws).length := by
          have := h
          simp [epsOf] at this
          omega
        rw [ih rest hlen]

/-- C3 (amended): if a wall list has exactly one endpoint pair `(a, b)`
within snap tolerance (at positive distance) and the midpoint of that pair is
not within tolerance of (nor required to snap to) any other endpoint, then
`_snap_corners` sets both endpoints of the pair to their exact midpoint (the
same shared value), leaves every other endpoint unchanged, and returns snap
count 1.  Zero-distance pairs are excluded by the snap condition and are
never snapped or counted. -/
theorem claim_C3_single_pair_snap {α : Type} [LinearOrderedField α]
    (walls : List (Wall α)) (tol : α) (a b : ℕ)
    (hab : a < b) (hbn : b < (epsOf walls).length)
    (hcond : snapCond (sqDist ((epsOf walls).getD a ⟨0, 0⟩)
        ((epsOf walls).getD b ⟨0, 0⟩)) tol)
    (hother : ∀ k l, k < l → l < (epsOf walls).length → ¬(k = a ∧ l = b) →
        ¬ snapCond (sqDist ((epsOf walls).getD k ⟨0, 0⟩)
            ((epsOf walls).getD l ⟨0, 0⟩)) tol)
    (hmid : ∀ k, k < (epsOf walls).length → k ≠ a → k ≠ b →
        ¬ snapCond (sqDist (midP ((epsOf walls).getD a ⟨0, 0⟩)
              ((epsOf walls).getD b ⟨0, 0⟩))
            ((epsOf walls).getD k ⟨0, 0⟩)) tol) :
    (snap_corners walls tol).2 = 1 ∧
    (epsOf (snap_corners walls tol).1).getD a ⟨0, 0⟩ =
      midP ((epsOf walls).getD a ⟨0, 0⟩) ((epsOf walls).getD b ⟨0, 0⟩) ∧
    (epsOf (snap_corners walls tol).1).getD b ⟨0, 0⟩ =
      midP ((epsOf walls).getD a ⟨0, 0⟩) ((epsOf walls).getD b ⟨0, 0⟩) ∧
    ∀ k, k < (epsOf walls).length → k ≠ a → k ≠ b →
      (epsOf (snap_corners walls tol).1).getD k ⟨0, 0⟩ =
        (epsOf walls).getD k ⟨0, 0⟩ := by
  set m := midP ((epsOf walls).getD a ⟨0, 0⟩) ((epsOf walls).getD b ⟨0, 0⟩)
    with hm
  have hnil : walls ≠ [] := by
    intro h
    subst h
    exact Nat.not_lt_zero b hbn
  have hbody : snap_corners walls tol =
      (writeBack walls (snapPass (epsOf walls) tol).1,
        (snapPass (epsOf walls) tol).2) := by
    unfold snap_corners
    rw [if_neg hnil]
  have hpass := snapPass_single_pair (epsOf walls) tol a b hab hbn hcond hother hmid
  have heps : epsOf (snap_corners walls tol).1 =
      (((epsOf walls).set a m).set b m) := by
    rw [hbody]
    show epsOf (writeBack walls (snapPass (epsOf walls) tol).1) = _
    rw [hpass]
    apply epsOf_writeBack
    rw [List.length_set, List.length_set]
  have hcount : (snap_corners walls tol).2 = 1 := by
    rw [hbody]
    show (snapPass (epsOf walls) tol).2 = 1
    rw [hpass]
  have han : a < (epsOf walls).length := lt_trans hab hbn
  refine ⟨hcount, ?_, ?_, ?_⟩
  · rw [heps, getD_set_ne _ _ _ _ _ (Nat.ne_of_gt hab),
      getD_set_self _ _ _ _ han]
  · rw [heps, getD_set_self _ _ _ _ (by rw [List.length_set]; exact hbn)]
  · intro k hk hka hkb
    rw [heps, getD_set_ne _ _ _ _ _ (Ne.symm hkb), getD_set_ne _ _ _ _ _ (Ne.symm hka)]

/-- C3 counterexample: walls `(0,0)–(100,0)` and `(0,5.7)–(5.4,2.85)` with the
default tolerance 6.  Exactly one endpoint pair — `(0,0)` and `(0,5.7)`, at
distance 5.7 — is initially within tolerance (all other pairs are at distance
≥ 6), yet the pass performs **two** snaps and leaves the second endpoint at
`(2.7,2.85)` instead of the midpoint `(0,2.85)`: the freshly written midpoint
itself comes within tolerance of the wall's other endpoint and is snapped
again later in the same pass. -/
theorem claim_C3_counterexample :
    snapCond (sqDist (⟨0, 0⟩ : Point ℚ) ⟨0, 57/10⟩) 6 ∧
    ¬ snapCond (sqDist (⟨0, 0⟩ : Point ℚ) ⟨100, 0⟩) 6 ∧
    ¬ snapCond (sqDist (⟨0, 0⟩ : Point ℚ) ⟨27/5, 57/20⟩) 6 ∧
    ¬ snapCond (sqDist (⟨100, 0⟩ : Point ℚ) ⟨0, 57/10⟩) 6 ∧
    ¬ snapCond (sqDist (⟨100, 0⟩ : Point ℚ) ⟨27/5, 57/20⟩) 6 ∧
    ¬ snapCond (sqDist (⟨0, 57/10⟩ : Point ℚ) ⟨27/5, 57/20⟩) 6 ∧
    (snap_corners [(⟨⟨0, 0⟩, ⟨100, 0⟩, 6, .exterior, .solid, 96⟩ : Wall ℚ),
                   ⟨⟨0, 57/10⟩, ⟨27/5, 57/20⟩, 6, .exterior, .solid, 96⟩] 6).2
      = 2 ∧
    (epsOf (snap_corners
        [(⟨⟨0, 0⟩, ⟨100, 0⟩, 6, .exterior, .solid, 96⟩ : Wall ℚ),
         ⟨⟨0, 57/10⟩, ⟨27/5, 57/20⟩, 6, .exterior, .solid, 96⟩] 6).1).getD 2
        ⟨0, 0⟩ = ⟨27/10, 57/20⟩ ∧
    (⟨27/10, 57/20⟩ : Point ℚ) ≠ midP ⟨0, 0⟩ ⟨0, 57/10⟩ := by
  refine ⟨?_, ?_, ?_, ?_, ?_, ?_, ?_, ?_, ?_⟩ <;>
    norm_num [snap_corners, snapPass, snapOuter, snapInner, snapCond, epsOf,
      writeBack, sqDist, midP, List.range', List.getD, List.foldl, List.set,
      List.cons_ne_nil, Point.mk.injEq]

/-- Witness for C3 (amended) at a concrete two-wall list whose only
in-tolerance pair is `(0,0)`/`(1.8,0)` (endpoints 0 and 2), with the midpoint
far from the remaining endpoints. -/
theorem claim_C3_witness :
    (snap_corners [(⟨⟨0, 0⟩, ⟨100, 0⟩, 6, .exterior, .solid, 96⟩ : Wall ℚ),
                   ⟨⟨9/5, 0⟩, ⟨200, 0⟩, 6, .exterior, .solid, 96⟩] 2).2 = 1 ∧
    (epsOf (snap_corners
        [(⟨⟨0, 0⟩, ⟨100, 0⟩, 6, .exterior, .solid, 96⟩ : Wall ℚ),
         ⟨⟨9/5, 0⟩, ⟨200, 0⟩, 6, .exterior, .solid, 96⟩] 2).1).getD 0 ⟨0, 0⟩ =
      midP ((epsOf [(⟨⟨0, 0⟩, ⟨100, 0⟩, 6, .exterior, .solid, 96⟩ : Wall ℚ),
                    ⟨⟨9/5, 0⟩, ⟨200, 0⟩, 6, .exterior, .solid, 96⟩]).getD 0 ⟨0, 0⟩)
           ((epsOf [(⟨⟨0, 0⟩, ⟨100, 0⟩, 6, .exterior, .solid, 96⟩ : Wall ℚ),
                    ⟨⟨9/5, 0⟩, ⟨200, 0⟩, 6, .exterior, .solid, 96⟩]).getD 2 ⟨0, 0⟩) ∧
    (epsOf (snap_corners
        [(⟨⟨0, 0⟩, ⟨100, 0⟩, 6, .exterior, .solid, 96⟩ : Wall ℚ),
         ⟨⟨9/5, 0⟩, ⟨200, 0⟩, 6, .exterior, .solid, 96⟩] 2).1).getD 2 ⟨0, 0⟩ =
      midP ((epsOf [(⟨⟨0, 0⟩, ⟨100, 0⟩, 6, .exterior, .solid, 96⟩ : Wall ℚ),
                    ⟨⟨9/5, 0⟩, ⟨200, 0⟩, 6, .exterior, .solid, 96⟩]).getD 0 ⟨0, 0⟩)
           ((epsOf [(⟨⟨0, 0⟩, ⟨100, 0⟩, 6, .exterior, .solid, 96⟩ : Wall ℚ),
                    ⟨⟨9/5, 0⟩, ⟨200, 0⟩, 6, .exterior, .solid, 96⟩]).getD 2 ⟨0, 0⟩) ∧
    ∀ k, k < (epsOf [(⟨⟨0, 0⟩, ⟨100, 0⟩, 6, .exterior, .solid, 96⟩ : Wall ℚ),
                     ⟨⟨9/5, 0⟩, ⟨200, 0⟩, 6, .exterior, .solid, 96⟩]).length →
      k ≠ 0 → k ≠ 2 →
      (epsOf (snap_corners
          [(⟨⟨0, 0⟩, ⟨100, 0⟩, 6, .exterior, .solid, 96⟩ : Wall ℚ),
           ⟨⟨9/5, 0⟩, ⟨200, 0⟩, 6, .exterior, .solid, 96⟩] 2).1).getD k ⟨0, 0⟩ =
        (epsOf [(⟨⟨0, 0⟩, ⟨100, 0⟩, 6, .exterior, .solid, 96⟩ : Wall ℚ),
                ⟨⟨9/5, 0⟩, ⟨200, 0⟩, 6, .exterior, .solid, 96⟩]).getD k ⟨0, 0⟩ :=
  claim_C3_single_pair_snap _ 2 0 2 (by norm_num)
    (by norm_num [epsOf])
    (by norm_num [snapCond, sqDist, epsOf, List.getD])
    (by
      intro k l hkl hln hne
      simp only [epsOf, List.length] at hln
      interval_cases l <;> interval_cases k <;>
        simp_all [snapCond, sqDist, epsOf, List.getD] <;> norm_num)
    (by
      intro k hk hka hkb
      simp only [epsOf, List.length] at hk
      interval_cases k <;>
        simp_all [snapCond, sqDist, epsOf, List.getD, midP] <;> norm_num)

/-- Every connection entry recorded in the adjacency graph points at a wall
index within range. -/
theorem endConnects_mem_lt {α : Type} [LinearOrderedField α]
    (walls : List (Wall α)) (i : ℕ) (e : Bool × ℕ)
    (h : e ∈ endConnects walls i) : e.2 < walls.length := by
  unfold endConnects at h
  obtain ⟨j, hj, he⟩ := List.mem_flatMap.mp h
  obtain ⟨-, hj2⟩ := List.mem_range'_1.mp hj
  rw [Nat.zero_add] at hj2
  by_cases hji : j = i
  · rw [if_pos hji] at he
    exact absurd he (List.not_mem_nil e)
  · rw [if_neg hji] at he
    rcases List.mem_append.mp he with h1 | h1
    · by_cases hc : sqDist (wget walls i).stop (wget walls j).start < 1 / 100
      · rw [if_pos hc] at h1
        rcases List.mem_singleton.mp h1 with rfl
        exact hj2
      · rw [if_neg hc] at h1
        exact absurd h1 (List.not_mem_nil e)
    · by_cases hc : sqDist (wget walls i).stop (wget walls j).stop < 1 / 100
      · rw [if_pos hc] at h1
        rcases List.mem_singleton.mp h1 with rfl
        exact hj2
      · rw [if_neg hc] at h1
        exact absurd h1 (List.not_mem_nil e)

/-- A successful successor search returns an in-graph entry whose wall is
unvisited. -/
theorem findNext_some_spec (conns : List (Bool × ℕ)) (visited : List ℕ)
    (f : Bool) (nxt : ℕ) (h : findNext conns visited = some (f, nxt)) :
    (f, nxt) ∈ conns ∧ nxt ∉ visited := by
  unfold findNext at h
  refine ⟨List.mem_of_find?_eq_some h, ?_⟩
  have hp := List.find?_some h
  simp only [Bool.not_eq_true'] at hp
  simpa using hp

/-- The trace loop keeps `ordered` and `visited` the same length. -/
theorem trace_length_eq {α : Type} [LinearOrderedField α]
    (walls : List (Wall α)) :
    ∀ (fuel : ℕ) (ordered : List (Wall α)) (visited : List ℕ) (cur : ℕ),
      ordered.length = visited.length →
      (trace walls fuel ordered visited cur).1.length =
        (trace walls fuel ordered visited cur).2.length := by
  intro fuel
  induction fuel with
  | zero => intro ordered visited cur h; exact h
  | succ fuel ih =>
      intro ordered visited cur h
      unfold trace
      by_cases hg : visited.length < walls.length
      · rw [if_pos hg]
        match hf : findNext (endConnects walls cur) visited with
        | none => exact h
        | some (f, nxt) =>
            simp only
            apply ih
            rw [List.length_append, List.length_append, h]
            rfl
      · rw [if_neg hg]
        exact h

/-- The trace loop preserves: visited indices are distinct and in range, and
each ordered wall is the wall at the corresponding visited index, possibly
flipped. -/
theorem trace_invariant {α : Type} [LinearOrderedField α]
    (walls : List (Wall α)) :
    ∀ (fuel : ℕ) (ordered : List (Wall α)) (visited : List ℕ) (cur : ℕ),
      visited.Nodup → (∀ v ∈ visited, v < walls.length) →
      List.Forall₂
        (fun w v => w = wget walls v ∨ w = flipWall (wget walls v))
        ordered visited →
      (trace walls fuel ordered visited cur).2.Nodup ∧
      (∀ v ∈ (trace walls fuel ordered visited cur).2, v < walls.length) ∧
      List.Forall₂
        (fun w v => w = wget walls v ∨ w = flipWall (wget walls v))
        (trace walls fuel ordered visited cur).1
        (trace walls fuel ordered visited cur).2 := by
  intro fuel
  induction fuel with
  | zero => intro ordered visited cur h1 h2 h3; exact ⟨h1, h2, h3⟩
  | succ fuel ih =>
      intro ordered visited cur h1 h2 h3
      unfold trace
      by_cases hg : visited.length < walls.length
      · rw [if_pos hg]
        match hf : findNext (endConnects walls cur) visited with
        | none => exact ⟨h1, h2, h3⟩
        | some (f, nxt) =>
            simp only
            obtain ⟨hmem, hnotv⟩ := findNext_some_spec _ _ _ _ hf
            apply ih
            · rw [List.nodup_append]
              exact ⟨h1, List.nodup_singleton nxt,
                fun a ha hb => hnotv ((List.mem_singleton.mp hb) ▸ ha)⟩
            · intro v hv
              rcases List.mem_append.mp hv with h | h
              · exact h2 v h
              · rw [List.mem_singleton.mp h]
                exact endConnects_mem_lt walls cur (f, nxt) hmem
            · apply List.rel_append h3
              refine List.Forall₂.cons ?_ List.Forall₂.nil
              by_cases hflip : f
              · rw [if_pos hflip]
                exact Or.inr rfl
              · rw [if_neg hflip]
                exact Or.inl rfl
      · rw [if_neg hg]
        exact ⟨h1, h2, h3⟩

/-- C2: when the trace from wall 0 cannot visit all walls (the walk gets
stuck with fewer than all walls visited), `_order_walls_fixed` returns the
original input list unchanged — same walls, same order, same orientations,
and (being a total function) no exception. -/
theorem claim_C2_broken_chain_returns_original {α : Type}
    [LinearOrderedField α] (walls : List (Wall α))
    (h : (trace walls walls.length [wget walls 0] [0] 0).2.length <
      walls.length) :
    order_walls_fixed walls = walls := by
  have hlen := trace_length_eq walls walls.length [wget walls 0] [0] 0 rfl
  unfold order_walls_fixed
  by_cases h0 : walls = []
  · rw [if_pos h0]
    exact h0.symm
  · rw [if_neg h0]
    by_cases h1 : walls.length = 1
    · rw [if_pos h1]
    · rw [if_neg h1]
      simp only
      rw [if_pos (by rw [hlen]; exact Nat.ne_of_lt h)]

/-- Witness for C2: three walls where the third is isolated; the trace visits
walls 0 and 2 and then has no unvisited successor. -/
theorem claim_C2_witness :
    order_walls_fixed
        [(⟨⟨0, 0⟩, ⟨1, 0⟩, 6, .exterior, .solid, 96⟩ : Wall ℚ),
         ⟨⟨50, 50⟩, ⟨60, 50⟩, 6, .exterior, .solid, 96⟩,
         ⟨⟨1, 0⟩, ⟨2, 0⟩, 6, .exterior, .solid, 96⟩] =
      [(⟨⟨0, 0⟩, ⟨1, 0⟩, 6, .exterior, .solid, 96⟩ : Wall ℚ),
       ⟨⟨50, 50⟩, ⟨60, 50⟩, 6, .exterior, .solid, 96⟩,
       ⟨⟨1, 0⟩, ⟨2, 0⟩, 6, .exterior, .solid, 96⟩] :=
  claim_C2_broken_chain_returns_original _ (by
    norm_num [trace, findNext, endConnects, wget, sqDist, flipWall,
      List.range', List.flatMap, List.getD, List.find?, List.contains,
      List.foldl])

/-- Reading a list back by index map reproduces the list. -/
theorem map_getD_range {γ : Type} (l : List γ) (d : γ) :
    (List.range l.length).map (fun i => l.getD i d) = l := by
  induction l with
  | nil => rfl
  | cons x xs ih =>
      show (List.range (xs.length + 1)).map (fun i => (x :: xs).getD i d) = x :: xs
      rw [List.range_succ_eq_map]
      simp only [List.map_cons, List.map_map]
      show x :: List.map ((fun i => (x :: xs).getD i d) ∘ Nat.succ) (List.range xs.length) = x :: xs
      have hcomp : ((fun i => (x :: xs).getD i d) ∘ Nat.succ) = fun i => xs.getD i d := by
        funext i
        rfl
      rw [hcomp, ih]

/-- C5 counterexample: walls `(0,0)–(1,0)` and `(5,0)–(1.05,0)`.  The trace
succeeds (flipping the second wall), so the result is *not* the original
list, yet the consecutive endpoints `(1,0)` and `(1.05,0)` are within the
0.1 graph tolerance without being equal — exact `end == start` fails. -/
theorem claim_C5_counterexample :
    order_walls_fixed
        [(⟨⟨0, 0⟩, ⟨1, 0⟩, 6, .exterior, .solid, 96⟩ : Wall ℚ),
         ⟨⟨5, 0⟩, ⟨21/20, 0⟩, 6, .exterior, .solid, 96⟩] =
      [⟨⟨0, 0⟩, ⟨1, 0⟩, 6, .exterior, .solid, 96⟩,
       ⟨⟨21/20, 0⟩, ⟨5, 0⟩, 6, .exterior, .solid, 96⟩] ∧
    order_walls_fixed
        [(⟨⟨0, 0⟩, ⟨1, 0⟩, 6, .exterior, .solid, 96⟩ : Wall ℚ),
         ⟨⟨5, 0⟩, ⟨21/20, 0⟩, 6, .exterior, .solid, 96⟩] ≠
      [(⟨⟨0, 0⟩, ⟨1, 0⟩, 6, .exterior, .solid, 96⟩ : Wall ℚ),
       ⟨⟨5, 0⟩, ⟨21/20, 0⟩, 6, .exterior, .solid, 96⟩] ∧
    ((order_walls_fixed
        [(⟨⟨0, 0⟩, ⟨1, 0⟩, 6, .exterior, .solid, 96⟩ : Wall ℚ),
         ⟨⟨5, 0⟩, ⟨21/20, 0⟩, 6, .exterior, .solid, 96⟩]).getD 0 dWall).stop ≠
      ((order_walls_fixed
        [(⟨⟨0, 0⟩, ⟨1, 0⟩, 6, .exterior, .solid, 96⟩ : Wall ℚ),
         ⟨⟨5, 0⟩, ⟨21/20, 0⟩, 6, .exterior, .solid, 96⟩]).getD 1 dWall).start := by
  refine ⟨?_, ?_, ?_⟩ <;>
    norm_num [order_walls_fixed, trace, endConnects, findNext, flipWall, wget,
      sqDist, List.range', List.flatMap, List.getD, List.foldl, List.find?,
      List.contains, List.cons_ne_nil, Point.mk.injEq, Wall.mk.injEq]

/-- C5 (amended): for every input wall list, the output of
`_order_walls_fixed` is either exactly the original list (on trace failure,
and in the trivial branches) or a permutation of the input in which
individual walls may have been reversed.  The claim's stronger consecutive
`end == start` condition — even up to the 0.1 tolerance — does not hold in
general (see the counterexample). -/
theorem claim_C5_permutation_up_to_reversal {α : Type} [LinearOrderedField α]
    (walls : List (Wall α)) :
    order_walls_fixed walls = walls ∨
      permUpToRev walls (order_walls_fixed walls) := by
  unfold order_walls_fixed
  by_cases h0 : walls = []
  · rw [if_pos h0]
    left
    exact h0.symm
  · rw [if_neg h0]
    by_cases h1 : walls.length = 1
    · rw [if_pos h1]
      left
      rfl
    · rw [if_neg h1]
      simp only
      by_cases hr : (trace walls walls.length [wget walls 0] [0] 0).1.length ≠
          walls.length
      · rw [if_pos hr]
        left
        rfl
      · rw [if_neg hr]
        right
        push_neg at hr
        have h0len : 0 < walls.length := List.length_pos.mpr h0
        obtain ⟨hnd, hbd, hrel⟩ := trace_invariant walls walls.length
          [wget walls 0] [0] 0 (List.nodup_singleton 0)
          (by intro v hv; rw [List.mem_singleton.mp hv]; exact h0len)
          (List.Forall₂.cons (Or.inl rfl) List.Forall₂.nil)
        have hlen2 : (trace walls walls.length [wget walls 0] [0] 0).1.length =
            (trace walls walls.length [wget walls 0] [0] 0).2.length :=
          hrel.length_eq
        have hvlen : (trace walls walls.length [wget walls 0] [0] 0).2.length =
            walls.length := by rw [← hlen2, hr]
        have hsub : (trace walls walls.length [wget walls 0] [0] 0).2 ⊆
            List.range walls.length := fun v hv => List.mem_range.mpr (hbd v hv)
        have hperm : (trace walls walls.length [wget walls 0] [0] 0).2.Perm
            (List.range walls.length) :=
          (List.subperm_of_subset hnd hsub).perm_of_length_le
            (by rw [hvlen, List.length_range])
        refine ⟨(trace walls walls.length [wget walls 0] [0] 0).2.map
          (fun v => wget walls v), ?_, ?_⟩
        · exact List.forall₂_map_right_iff.mpr hrel
        · have hmapwalls : (List.range walls.length).map (fun v => wget walls v) =
              walls := by
            simp only [wget]
            exact map_getD_range walls dWall
          refine (hperm.map (fun v => wget walls v)).trans ?_
          rw [hmapwalls]

theorem getD_map_range {γ : Type} (g : ℕ → γ) (r k : ℕ) (d : γ) (h : k < r) :
    ((List.range r).map g).getD k d = g k := by
  unfold List.getD
  rw [List.get?_map, List.get?_range h]
  rfl

theorem flatMap_nil_of_forall {γ : Type} (f : ℕ → List γ) (l : List ℕ)
    (h : ∀ j ∈ l, f j = []) : l.flatMap f = [] := by
  induction l with
  | nil => rfl
  | cons a l ih =>
      rw [List.flatMap_cons, h a (List.mem_cons_self _ _), List.nil_append]
      exact ih fun j hj => h j (List.mem_cons.mpr (Or.inr hj))

theorem flatMap_single {γ : Type} (f : ℕ → List γ) (l : List ℕ) (a : ℕ)
    (hnd : l.Nodup) (ha : a ∈ l) (hz : ∀ j ∈ l, j ≠ a → f j = []) :
    l.flatMap f = f a := by
  induction l with
  | nil => exact absurd ha (List.not_mem_nil a)
  | cons b l ih =>
      rw [List.flatMap_cons]
      by_cases hba : b = a
      · subst hba
        have hnotin : b ∉ l := (List.nodup_cons.mp hnd).1
        rw [flatMap_nil_of_forall f l
          (fun j hj => hz j (List.mem_cons.mpr (Or.inr hj))
            (fun hja => hnotin (hja ▸ hj))), List.append_nil]
      · rw [hz b (List.mem_cons_self _ _) hba, List.nil_append]
        exact ih (List.nodup_cons.mp hnd).2
          (List.mem_cons.mp ha |>.resolve_left fun h => hba h.symm)
          fun j hj hja => hz j (List.mem_cons.mpr (Or.inr hj)) hja

/-- Both endpoints of every wall occur in the flattened endpoint list. -/
theorem wget_mem_epsOf {α : Type} [LinearOrderedField α] :
    ∀ (walls : List (Wall α)) (i : ℕ), i < walls.length →
      (wget walls i).start ∈ epsOf walls ∧ (wget walls i).stop ∈ epsOf walls := by
  intro walls
  induction walls with
  | nil => intro i hi; exact absurd hi (Nat.not_lt_zero i)
  | cons w ws ih =>
      intro i hi
      match i with
      | 0 =>
          constructor
          · exact List.mem_cons_self _ _
          · exact List.mem_cons.mpr (Or.inr (List.mem_cons_self _ _))
      | i + 1 =>
          have hi' : i < ws.length := by
            simpa using hi
          have hw : wget (w :: ws) (i + 1) = wget ws i := rfl
          rw [hw]
          obtain ⟨h1, h2⟩ := ih i hi'
          exact ⟨List.mem_cons.mpr (Or.inr (List.mem_cons.mpr (Or.inr h1))),
                 List.mem_cons.mpr (Or.inr (List.mem_cons.mpr (Or.inr h2)))⟩

theorem sqDist_self {α : Type} [CommRing α] (p : Point α) : sqDist p p = 0 := by
  unfold sqDist
  ring

/-- In a snapped single cycle, every wall's end-connection list starts with
the no-flip entry for its unique successor, and contains no entries for any
other wall. -/
theorem endConnects_cycle {α : Type} [LinearOrderedField α]
    (walls : List (Wall α)) (σ : ℕ → ℕ)
    (hσlt : ∀ i, i < walls.length → σ i < walls.length)
    (hσne : ∀ i, i < walls.length → σ i ≠ i)
    (hsucc : ∀ i, i < walls.length →
      (wget walls i).stop = (wget walls (σ i)).start)
    (huniq : ∀ i, i < walls.length → ∀ j, j < walls.length → j ≠ i →
      (wget walls j).start = (wget walls i).stop → j = σ i)
    (hinj : ∀ a, a < walls.length → ∀ b, b < walls.length → σ a = σ b → a = b)
    (hsep : ∀ p ∈ epsOf walls, ∀ q ∈ epsOf walls,
      p = q ∨ 1 / 100 ≤ sqDist p q)
    (i : ℕ) (hi : i < walls.length) :
    ∃ rest, endConnects walls i = (false, σ i) :: rest ∧
      ∀ e ∈ rest, e.2 = σ i := by
  have hnd : (List.range' 0 walls.length).Nodup := by
    rw [← List.range_eq_range']
    exact List.nodup_range walls.length
  have hmemσ : σ i ∈ List.range' 0 walls.length := by
    rw [← List.range_eq_range']
    exact List.mem_range.mpr (hσlt i hi)
  have hsingle := flatMap_single
    (fun j =>
      if j = i then []
      else
        (if sqDist (wget walls i).stop (wget walls j).start < 1 / 100
          then [(false, j)] else []) ++
        (if sqDist (wget walls i).stop (wget walls j).stop < 1 / 100
          then [(true, j)] else []))
    (List.range' 0 walls.length) (σ i) hnd hmemσ ?_
  · rw [show endConnects walls i = (List.range' 0 walls.length).flatMap
        (fun j =>
          if j = i then []
          else
            (if sqDist (wget walls i).stop (wget walls j).start < 1 / 100
              then [(false, j)] else []) ++
            (if sqDist (wget walls i).stop (wget walls j).stop < 1 / 100
              then [(true, j)] else [])) from rfl, hsingle]
    beta_reduce
    rw [if_neg (hσne i hi)]
    have hc1 : sqDist (wget walls i).stop (wget walls (σ i)).start < 1 / 100 := by
      rw [← hsucc i hi, sqDist_self]
      norm_num
    rw [if_pos hc1]
    by_cases hc2 : sqDist (wget walls i).stop (wget walls (σ i)).stop < 1 / 100
    · rw [if_pos hc2]
      exact ⟨[(true, σ i)], rfl, fun e he => by
        rw [List.mem_singleton.mp he]⟩
    · rw [if_neg hc2]
      exact ⟨[], rfl, fun e he => absurd he (List.not_mem_nil e)⟩
  · intro j hjmem hjσ
    beta_reduce
    have hj : j < walls.length := by
      rw [← List.range_eq_range'] at hjmem
      exact List.mem_range.mp hjmem
    by_cases hji : j = i
    · rw [if_pos hji]
    · rw [if_neg hji]
      have hstopi := (wget_mem_epsOf walls i hi).2
      have hstartj := (wget_mem_epsOf walls j hj).1
      have hstopj := (wget_mem_epsOf walls j hj).2
      have hc1 : ¬ sqDist (wget walls i).stop (wget walls j).start < 1 / 100 := by
        intro hlt
        rcases hsep _ hstopi _ hstartj with heq | hge
        · exact hjσ (huniq i hi j hj hji heq.symm)
        · linarith
      have hc2 : ¬ sqDist (wget walls i).stop (wget walls j).stop < 1 / 100 := by
        intro hlt
        rcases hsep _ hstopi _ hstopj with heq | hge
        · have hstart : (wget walls (σ i)).start = (wget walls j).stop := by
            rw [← hsucc i hi]
            exact heq
          have hσij : σ i ≠ j := fun h => hjσ h.symm
          have hσσ : σ i = σ j :=
            huniq j hj (σ i) (hσlt i hi) hσij hstart
          exact hji (hinj i hi j hj hσσ).symm
        · linarith
      rw [if_neg hc1, if_neg hc2]
      rfl

theorem iterate_lt_of_lt (σ : ℕ → ℕ) (n : ℕ)
    (hσlt : ∀ i, i < n → σ i < n) :
    ∀ k x, x < n → σ^[k] x < n := by
  intro k
  induction k with
  | zero => intro x hx; exact hx
  | succ k ih =>
      intro x hx
      rw [Function.iterate_succ_apply']
      exact hσlt _ (ih x hx)

theorem iterate_cancel_of_inj (σ : ℕ → ℕ) (n : ℕ)
    (hσlt : ∀ i, i < n → σ i < n)
    (hinj : ∀ a, a < n → ∀ b, b < n → σ a = σ b → a = b) :
    ∀ c x y, x < n → y < n → σ^[c] x = σ^[c] y → x = y := by
  intro c
  induction c with
  | zero => intro x y _ _ h; exact h
  | succ c ih =>
      intro x y hx hy h
      rw [Function.iterate_succ_apply, Function.iterate_succ_apply] at h
      exact hinj x hx y hy (ih (σ x) (σ y) (hσlt x hx) (hσlt y hy) h)

/-- In a single covering cycle, the first `n` orbit points of `0` are
pairwise distinct. -/
theorem orbit_inj (σ : ℕ → ℕ) (n : ℕ) (hn : 0 < n)
    (hσlt : ∀ i, i < n → σ i < n)
    (hinj : ∀ a, a < n → ∀ b, b < n → σ a = σ b → a = b)
    (horbit : ∀ j, j < n → ∃ k, k < n ∧ σ^[k] 0 = j) :
    ∀ k1 k2, k1 < n → k2 < n → σ^[k1] 0 = σ^[k2] 0 → k1 = k2 := by
  -- first: no positive period `d < n`
  have hnoper : ∀ d, 0 < d → d < n → σ^[d] 0 = 0 → False := by
    intro d hd0 hdn h0
    have hper : ∀ a, σ^[a + d] 0 = σ^[a] 0 := by
      intro a
      rw [Function.iterate_add_apply, h0]
    have hred : ∀ k, σ^[k] 0 = σ^[k % d] 0 := by
      intro k
      induction k using Nat.strong_induction_on with
      | _ k ih =>
          by_cases hk : k < d
          · rw [Nat.mod_eq_of_lt hk]
          · push_neg at hk
            have h1 : k = (k - d) + d := by omega
            have h2 : σ^[k] 0 = σ^[k - d] 0 := by
              conv_lhs => rw [h1]
              exact hper (k - d)
            rw [h2, ih (k - d) (by omega), Nat.mod_eq_sub_mod hk]
    have hsubset : List.range n ⊆ (List.range d).map (fun k => σ^[k] 0) := by
      intro j hj
      obtain ⟨k, hk, hk0⟩ := horbit j (List.mem_range.mp hj)
      rw [← hk0, hred k]
      exact List.mem_map.mpr ⟨k % d, List.mem_range.mpr (Nat.mod_lt k hd0), rfl⟩
    have hle := (List.subperm_of_subset (List.nodup_range n) hsubset).length_le
    rw [List.length_range, List.length_map, List.length_range] at hle
    omega
  -- then distinctness
  intro k1 k2 hk1 hk2 heq
  rcases Nat.lt_trichotomy k1 k2 with hlt | he | hgt
  · exfalso
    have h1 : k2 = k1 + (k2 - k1) := by omega
    have h2 : σ^[k1] (σ^[k2 - k1] 0) = σ^[k1] 0 := by
      rw [← Function.iterate_add_apply, ← h1, heq]
    have h3 : σ^[k2 - k1] 0 = 0 :=
      iterate_cancel_of_inj σ n hσlt hinj k1 _ _
        (iterate_lt_of_lt σ n hσlt _ _ hn) hn h2
    exact hnoper (k2 - k1) (by omega) (by omega) h3
  · exact he
  · exfalso
    have h1 : k1 = k2 + (k1 - k2) := by omega
    have h2 : σ^[k2] (σ^[k1 - k2] 0) = σ^[k2] 0 := by
      rw [← Function.iterate_add_apply, ← h1, heq.symm]
    have h3 : σ^[k1 - k2] 0 = 0 :=
      iterate_cancel_of_inj σ n hσlt hinj k2 _ _
        (iterate_lt_of_lt σ n hσlt _ _ hn) hn h2
    exact hnoper (k1 - k2) (by omega) (by omega) h3

/-- In a single covering cycle over `n` walls, the orbit of `0` returns to
`0` after exactly `n` steps. -/
theorem orbit_period (σ : ℕ → ℕ) (n : ℕ) (hn : 0 < n)
    (hσlt : ∀ i, i < n → σ i < n)
    (hinj : ∀ a, a < n → ∀ b, b < n → σ a = σ b → a = b)
    (horbit : ∀ j, j < n → ∃ k, k < n ∧ σ^[k] 0 = j) :
    σ^[n] 0 = 0 := by
  obtain ⟨k, hk, hk0⟩ := horbit (σ^[n] 0) (iterate_lt_of_lt σ n hσlt n 0 hn)
  match k, hk, hk0 with
  | 0, _, hk0 => exact hk0.symm
  | k + 1, hk, hk0 =>
      exfalso
      have h1 : n = (k + 1) + (n - (k + 1)) := by omega
      have h2 : σ^[k + 1] (σ^[n - (k + 1)] 0) = σ^[k + 1] 0 := by
        rw [← Function.iterate_add_apply, ← h1, hk0]
      have h3 : σ^[n - (k + 1)] 0 = 0 :=
        iterate_cancel_of_inj σ n hσlt hinj (k + 1) _ _
          (iterate_lt_of_lt σ n hσlt _ _ hn) hn h2
      have h4 : σ^[n - (k + 1)] 0 = σ^[0] 0 := h3
      have := orbit_inj σ n hn hσlt hinj horbit (n - (k + 1)) 0
        (by omega) hn h4
      omega

/-- On a snapped single cycle, the trace loop follows the orbit of wall 0:
starting after `k+1` placed walls with `walls.length - k` fuel, it finishes
with the whole orbit placed, unflipped and in orbit order. -/
theorem trace_orbit {α : Type} [LinearOrderedField α]
    (walls : List (Wall α)) (σ : ℕ → ℕ)
    (hσlt : ∀ i, i < walls.length → σ i < walls.length)
    (hσne : ∀ i, i < walls.length → σ i ≠ i)
    (hsucc : ∀ i, i < walls.length →
      (wget walls i).stop = (wget walls (σ i)).start)
    (huniq : ∀ i, i < walls.length → ∀ j, j < walls.length → j ≠ i →
      (wget walls j).start = (wget walls i).stop → j = σ i)
    (hinj : ∀ a, a < walls.length → ∀ b, b < walls.length → σ a = σ b → a = b)
    (horbit : ∀ j, j < walls.length → ∃ k, k < walls.length ∧ σ^[k] 0 = j)
    (hsep : ∀ p ∈ epsOf walls, ∀ q ∈ epsOf walls,
      p = q ∨ 1 / 100 ≤ sqDist p q)
    (hn : 0 < walls.length) :
    ∀ (f k : ℕ), k < walls.length → walls.length - k = f →
      trace walls f
        ((List.range (k + 1)).map fun j => wget walls (σ^[j] 0))
        ((List.range (k + 1)).map fun j => σ^[j] 0)
        (σ^[k] 0) =
      ((List.range walls.length).map fun j => wget walls (σ^[j] 0),
       (List.range walls.length).map fun j => σ^[j] 0) := by
  intro f
  induction f with
  | zero => intro k hk hf; omega
  | succ f ih =>
      intro k hk hf
      by_cases hklast : k + 1 = walls.length
      · have hvlen : ((List.range (k + 1)).map fun j => σ^[j] 0).length =
            walls.length := by
          rw [List.length_map, List.length_range, hklast]
        unfold trace
        rw [if_neg (by rw [hvlen]; exact lt_irrefl _)]
        rw [hklast]
      · have hguard : ((List.range (k + 1)).map fun j => σ^[j] 0).length <
            walls.length := by
          rw [List.length_map, List.length_range]
          omega
        obtain ⟨rest, hconn, hrest⟩ := endConnects_cycle walls σ hσlt hσne
          hsucc huniq hinj hsep (σ^[k] 0) (iterate_lt_of_lt σ _ hσlt k 0 hn)
        have hσsucc : σ (σ^[k] 0) = σ^[k + 1] 0 :=
          (Function.iterate_succ_apply' σ k 0).symm
        have hnotmem : σ^[k + 1] 0 ∉ (List.range (k + 1)).map
            fun j => σ^[j] 0 := by
          intro hmem
          obtain ⟨j, hj, hj0⟩ := List.mem_map.mp hmem
          have hj' : j < k + 1 := List.mem_range.mp hj
          have := orbit_inj σ walls.length hn hσlt hinj horbit j (k + 1)
            (by omega) (by omega) hj0
          omega
        have hfind : findNext (endConnects walls (σ^[k] 0))
            ((List.range (k + 1)).map fun j => σ^[j] 0) =
              some (false, σ^[k + 1] 0) := by
          unfold findNext
          rw [hconn, hσsucc]
          apply List.find?_cons_of_pos
          beta_reduce
          rw [show ((List.range (k + 1)).map fun j => σ^[j] 0).contains
              (σ^[k + 1] 0) = false by simpa using hnotmem]
          rfl
        unfold trace
        rw [if_pos hguard, hfind]
        show trace walls f
            (((List.range (k + 1)).map fun j => wget walls (σ^[j] 0)) ++
              [wget walls (σ^[k + 1] 0)])
            (((List.range (k + 1)).map fun j => σ^[j] 0) ++ [σ^[k + 1] 0])
            (σ^[k + 1] 0) = _
        rw [show ((List.range (k + 1)).map fun j => wget walls (σ^[j] 0)) ++
              [wget walls (σ^[k + 1] 0)] =
            (List.range (k + 2)).map fun j => wget walls (σ^[j] 0) by
          rw [show List.range (k + 2) = List.range (k + 1) ++ [k + 1] from
            List.range_succ (k + 1), List.map_append]
          rfl]
        rw [show ((List.range (k + 1)).map fun j => σ^[j] 0) ++
              [σ^[k + 1] 0] =
            (List.range (k + 2)).map fun j => σ^[j] 0 by
          rw [show List.range (k + 2) = List.range (k + 1) ++ [k + 1] from
            List.range_succ (k + 1), List.map_append]
          rfl]
        exact ih (k + 1) (by omega) (by omega)

/-- C1: on an input forming a perfect closed loop — each wall's end exactly
equals the start of its unique successor `σ i` (`σ` a permutation with a
single orbit covering all walls), corners already snapped (distinct endpoint
values at least the 0.1 graph tolerance apart) — `_order_walls_fixed`
returns a permutation of the input (up to reversal; in fact no wall is
flipped) in which every consecutive pair satisfies `end = start` exactly,
and the closure gap from the last wall's end to the first wall's start is 0,
in particular below 1 inch. -/
theorem claim_C1_perfect_loop {α : Type} [LinearOrderedField α]
    (walls : List (Wall α)) (σ : ℕ → ℕ)
    (hne : walls ≠ [])
    (hσlt : ∀ i, i < walls.length → σ i < walls.length)
    (hσne : ∀ i, i < walls.length → σ i ≠ i)
    (hsucc : ∀ i, i < walls.length →
      (wget walls i).stop = (wget walls (σ i)).start)
    (huniq : ∀ i, i < walls.length → ∀ j, j < walls.length → j ≠ i →
      (wget walls j).start = (wget walls i).stop → j = σ i)
    (hinj : ∀ a, a < walls.length → ∀ b, b < walls.length → σ a = σ b → a = b)
    (horbit : ∀ j, j < walls.length → ∃ k, k < walls.length ∧ σ^[k] 0 = j)
    (hsep : ∀ p ∈ epsOf walls, ∀ q ∈ epsOf walls,
      p = q ∨ 1 / 100 ≤ sqDist p q) :
    permUpToRev walls (order_walls_fixed walls) ∧
    (∀ k, k + 1 < (order_walls_fixed walls).length →
      ((order_walls_fixed walls).getD k dWall).stop =
        ((order_walls_fixed walls).getD (k + 1) dWall).start) ∧
    sqDist ((order_walls_fixed walls).getD
        ((order_walls_fixed walls).length - 1) dWall).stop
      ((order_walls_fixed walls).getD 0 dWall).start < 1 := by
  have hn : 0 < walls.length := List.length_pos.mpr hne
  have hn1 : walls.length ≠ 1 := by
    intro h1
    have h2 := hσlt 0 hn
    have h3 := hσne 0 hn
    omega
  have htrace : trace walls walls.length [wget walls 0] [0] 0 =
      ((List.range walls.length).map fun j => wget walls (σ^[j] 0),
       (List.range walls.length).map fun j => σ^[j] 0) :=
    trace_orbit walls σ hσlt hσne hsucc huniq hinj horbit hsep hn
      walls.length 0 hn (by omega)
  have hlenN : ((List.range walls.length).map
      fun j => wget walls (σ^[j] 0)).length = walls.length := by
    rw [List.length_map, List.length_range]
  have horder : order_walls_fixed walls =
      (List.range walls.length).map fun j => wget walls (σ^[j] 0) := by
    unfold order_walls_fixed
    rw [if_neg hne, if_neg hn1]
    simp only
    rw [htrace]
    rw [if_neg (by rw [hlenN]; exact fun h => h rfl)]
  refine ⟨?_, ?_, ?_⟩
  · -- permutation (no flips needed)
    rw [horder]
    refine ⟨(List.range walls.length).map fun j => wget walls (σ^[j] 0),
      List.forall₂_same.mpr (fun x _ => Or.inl rfl), ?_⟩
    have horbNodup : ((List.range walls.length).map fun j => σ^[j] 0).Nodup :=
      (List.nodup_range walls.length).map_on
        (fun x hx y hy hxy => orbit_inj σ walls.length hn hσlt hinj horbit
          x y (List.mem_range.mp hx) (List.mem_range.mp hy) hxy)
    have horbSub : ((List.range walls.length).map fun j => σ^[j] 0) ⊆
        List.range walls.length := by
      intro v hv
      obtain ⟨j, -, hj0⟩ := List.mem_map.mp hv
      rw [← hj0]
      exact List.mem_range.mpr (iterate_lt_of_lt σ walls.length hσlt j 0 hn)
    have horbPerm : ((List.range walls.length).map fun j => σ^[j] 0).Perm
        (List.range walls.length) :=
      (List.subperm_of_subset horbNodup horbSub).perm_of_length_le
        (by simp)
    have h1 : (List.range walls.length).map (fun j => wget walls (σ^[j] 0)) =
        ((List.range walls.length).map fun j => σ^[j] 0).map
          (fun v => wget walls v) := by
      rw [List.map_map]
      rfl
    rw [h1]
    refine (horbPerm.map (fun v => wget walls v)).trans ?_
    rw [show (List.range walls.length).map (fun v => wget walls v) = walls by
      simp only [wget]
      exact map_getD_range walls dWall]
  · -- exact consecutive end = start
    intro k hk
    rw [horder] at hk ⊢
    rw [hlenN] at hk
    rw [getD_map_range _ _ _ _ (by omega), getD_map_range _ _ _ _ hk]
    rw [hsucc (σ^[k] 0) (iterate_lt_of_lt σ walls.length hσlt k 0 hn)]
    rw [Function.iterate_succ_apply' σ k 0]
  · -- closure distance is 0 < 1
    rw [horder, hlenN]
    rw [getD_map_range _ _ _ _ (by omega), getD_map_range _ _ _ _ hn]
    rw [hsucc (σ^[walls.length - 1] 0)
      (iterate_lt_of_lt σ walls.length hσlt _ 0 hn)]
    have hlast : σ (σ^[walls.length - 1] 0) = 0 := by
      have h1 : σ (σ^[walls.length - 1] 0) = σ^[walls.length] 0 := by
        rw [← Function.iterate_succ_apply' σ (walls.length - 1) 0]
        congr 1
        omega
      rw [h1]
      exact orbit_period σ walls.length hn hσlt hinj horbit
    rw [hlast]
    rw [show (σ^[0] 0) = 0 from rfl, sqDist_self]
    norm_num

/-- Witness for C1: the square loop with successor `i ↦ (i+1) % 4`. -/
theorem claim_C1_witness :
    permUpToRev sqWalls (order_walls_fixed sqWalls) ∧
    (∀ k, k + 1 < (order_walls_fixed sqWalls).length →
      ((order_walls_fixed sqWalls).getD k dWall).stop =
        ((order_walls_fixed sqWalls).getD (k + 1) dWall).start) ∧
    sqDist ((order_walls_fixed sqWalls).getD
        ((order_walls_fixed sqWalls).length - 1) dWall).stop
      ((order_walls_fixed sqWalls).getD 0 dWall).start < 1 :=
  claim_C1_perfect_loop sqWalls (fun i => (i + 1) % 4)
    (by simp [sqWalls])
    (fun i hi => Nat.mod_lt _ (by norm_num))
    (by
      intro i hi
      have hi4 : i < 4 := hi
      interval_cases i <;> norm_num)
    (by
      intro i hi
      have hi4 : i < 4 := hi
      interval_cases i <;> rfl)
    (by
      intro i hi j hj hjne heq
      have hi4 : i < 4 := hi
      have hj4 : j < 4 := hj
      interval_cases i <;> interval_cases j <;>
        simp_all [sqWalls, wget, List.getD, Point.mk.injEq]
      )
    (by
      intro a ha b hb h
      have ha4 : a < 4 := ha
      have hb4 : b < 4 := hb
      simp only at h
      omega)
    (by
      intro j hj
      have hj4 : j < 4 := hj
      interval_cases j
      · exact ⟨0, by simp [sqWalls], rfl⟩
      · exact ⟨1, by simp [sqWalls], rfl⟩
      · exact ⟨2, by simp [sqWalls], rfl⟩
      · exact ⟨3, by simp [sqWalls], rfl⟩)
    (by
      intro p hp q hq
      simp only [sqWalls, epsOf] at hp hq
      fin_cases hp <;> fin_cases hq <;> norm_num [sqDist, Point.mk.injEq])
